import Mathlib

/-!
Verification of the XmlCleanup repository (an XML pretty-printing tool).

Strings are modelled as `List Char`.  The C++ helpers of
`src/XmlIndenter.cpp` (`replaceAll`, `normalizeLineEndings`,
`formatSingleLineComments`, the self-closing-tag post-pass and the
`indentXML` pipeline) are embedded as executable Lean functions.  The
imperative `while (find ...)` loops of the source are modelled with an
explicit fuel argument that is structurally consumed; every loop strictly
decreases the quantity `result.length - pos`, so fuel `length + 1`
always suffices, and the wrapper definitions supply exactly that fuel.
-/

namespace XmlCleanup

/-- Model of `std::string::find(char, pos)` restricted to searching from the
head: index of the first occurrence of character `c` in `l`. -/
def findChar (c : Char) : List Char → Option Nat
  | [] => none
  | d :: rest => if d = c then some 0 else (findChar c rest).map (· + 1)

/-- Model of `std::string::find(str, pos)` restricted to searching from the
head: index of the first position where `pat` occurs as a prefix of the
remaining list. -/
def findSub (pat : List Char) : List Char → Option Nat
  | [] => if pat.isEmpty then some 0 else none
  | c :: rest => if pat.isPrefixOf (c :: rest) then some 0 else (findSub pat rest).map (· + 1)

/-- Model of `std::string::find(str, pos)`: first occurrence of `pat` in `s`
at an index that is at least `pos`. -/
def findFrom (pat : List Char) (s : List Char) (pos : Nat) : Option Nat :=
  (findSub pat (s.drop pos)).map (· + pos)

theorem findChar_none {c : Char} {l : List Char} (h : findChar c l = none) : c ∉ l := by
  induction l with
  | nil => simp
  | cons d rest ih =>
    by_cases hd : d = c
    · simp [findChar, hd] at h
    · simp [findChar, hd] at h
      cases hfc : findChar c rest with
      | none => simpa [hd, Ne.symm hd] using fun hm => (ih hfc) hm
      | some j => simp [hfc] at h

theorem findChar_some {c : Char} {l : List Char} {j : Nat} (h : findChar c l = some j) :
    l.drop j = c :: l.drop (j + 1) ∧ c ∉ l.take j := by
  induction l generalizing j with
  | nil => simp [findChar] at h
  | cons d rest ih =>
    by_cases hd : d = c
    · simp [findChar, hd] at h
      subst h
      simp [hd]
    · simp [findChar, hd] at h
      cases hfc : findChar c rest with
      | none => simp [hfc] at h
      | some j' =>
        simp [hfc] at h
        obtain ⟨h1, h2⟩ := ih hfc
        cases j with
        | zero => omega
        | succ jj =>
          have hj : j' = jj := by omega
          subst hj
          refine ⟨by simpa using h1, ?_⟩
          simp [List.take_succ_cons, hd, Ne.symm hd]
          exact fun hm => h2 hm

theorem findSub_none {pat : List Char} {l : List Char} (hp : pat ≠ [])
    (h : findSub pat l = none) : ∀ i, ¬ pat.isPrefixOf (l.drop i) := by
  induction l with
  | nil =>
    intro i hpre
    rw [List.drop_nil] at hpre
    cases pat with
    | nil => exact hp rfl
    | cons a b => simp [List.isPrefixOf] at hpre
  | cons c rest ih =>
    intro i hpre
    by_cases h0 : pat.isPrefixOf (c :: rest)
    · simp [findSub, h0] at h
    · simp [findSub, h0] at h
      cases i with
      | zero => exact h0 (by simpa using hpre)
      | succ ii => exact ih h ii (by simpa using hpre)

theorem findSub_some {pat : List Char} {l : List Char} {j : Nat}
    (h : findSub pat l = some j) :
    pat.isPrefixOf (l.drop j) ∧ ∀ i, i < j → ¬ pat.isPrefixOf (l.drop i) := by
  induction l generalizing j with
  | nil =>
    by_cases hpat : pat = []
    · subst hpat
      simp [findSub] at h
      subst h
      exact ⟨by simp [List.isPrefixOf], by omega⟩
    · cases pat with
      | nil => exact absurd rfl hpat
      | cons a b => simp [findSub, List.isEmpty] at h
  | cons c rest ih =>
    by_cases h0 : pat.isPrefixOf (c :: rest)
    · simp [findSub, h0] at h
      subst h
      exact ⟨by simpa using h0, by omega⟩
    · simp [findSub, h0] at h
      obtain ⟨j', hfs, hj⟩ := h
      obtain ⟨hpre, hmin⟩ := ih hfs
      cases j with
      | zero => omega
      | succ jj =>
        have hj2 : j' = jj := by omega
        subst hj2
        refine ⟨by simpa using hpre, ?_⟩
        intro i hi hp2
        cases i with
        | zero => exact h0 (by simpa using hp2)
        | succ ii => exact hmin ii (by omega) (by simpa using hp2)

theorem isPrefixOf_length_le {pat l : List Char} (h : pat.isPrefixOf l) :
    pat.length ≤ l.length := by
  have := List.isPrefixOf_iff_prefix.mp h
  exact this.length_le

theorem findSub_some_length {pat l : List Char} {j : Nat}
    (h : findSub pat l = some j) : j + pat.length ≤ l.length := by
  have h1 := (findSub_some h).1
  have h2 := isPrefixOf_length_le h1
  simp [List.length_drop] at h2
  -- When `j > l.length`, `drop` gives `[]`, so `pat` is forced to be `[]` and
  -- the inequality is about `j` alone; rule that out with the minimality of `j`.
  by_cases hj : j ≤ l.length
  · omega
  · exfalso
    have hd : l.drop j = [] := List.drop_eq_nil_of_le (by omega)
    have hd2 : l.drop l.length = [] := List.drop_eq_nil_of_le (by omega)
    have h3 := (findSub_some h).2 l.length (by omega)
    rw [hd] at h1
    rw [hd2] at h3
    exact h3 h1

theorem findFrom_some {pat s : List Char} {pos p : Nat} (hp0 : pat ≠ [])
    (h : findFrom pat s pos = some p) :
    pos ≤ p ∧ pat.isPrefixOf (s.drop p) ∧ p + pat.length ≤ s.length := by
  simp [findFrom] at h
  obtain ⟨j, hj, hp⟩ := h
  have h1 := (findSub_some hj).1
  have h2 := findSub_some_length hj
  have h3 : 0 < pat.length := List.length_pos.mpr hp0
  subst hp
  refine ⟨by omega, ?_, ?_⟩
  · rwa [List.drop_drop, Nat.add_comm] at h1
  · simp [List.length_drop] at h2
    omega

/-- Model of `std::string::find(char, pos)`: first occurrence of `c` in `s` at
an index that is at least `pos`. -/
def findCharFrom (c : Char) (s : List Char) (pos : Nat) : Option Nat :=
  (findChar c (s.drop pos)).map (· + pos)

/-- First pass of `normalizeLineEndings` (src/src/XmlIndenter.cpp lines 38-51):
a `while (find('\r', pos))` loop that replaces every `\r` not followed by `\n`
with `\r\n`.  The loop is modelled with explicit fuel; every iteration strictly
decreases `result.length - pos`, so fuel `length + 1` suffices. -/
def pass1Go (fuel : Nat) (result : List Char) (pos : Nat) : List Char :=
  match fuel with
  | 0 => result
  | fuel + 1 =>
    match findCharFrom '\r' result pos with
    | none => result
    | some p =>
      if p + 1 ≥ result.length ∨ result[p + 1]? ≠ some '\n' then
        pass1Go fuel (result.take p ++ ['\r', '\n'] ++ result.drop (p + 1)) (p + 2)
      else
        pass1Go fuel result (p + 1)

/-- Second pass of `normalizeLineEndings` (src/src/XmlIndenter.cpp lines 54-67):
a character-by-character copy that replaces every `\n` not preceded by `\r`
with `\r\n`.  The `prev` argument is the previous character of the pass-1
string (`none` models `i == 0`). -/
def pass2 (prev : Option Char) : List Char → List Char
  | [] => []
  | c :: rest =>
    if c = '\n' ∧ prev ≠ some '\r' then '\r' :: '\n' :: pass2 (some c) rest
    else c :: pass2 (some c) rest

/-- Model of `normalizeLineEndings` (src/src/XmlIndenter.cpp lines 33-70). -/
def normalizeLineEndings (content : List Char) : List Char :=
  pass2 none (pass1Go (content.length + 1) content 0)

/-- Specification scanner for pass 1: `\r\n` kept, lone `\r` becomes `\r\n`,
all other characters copied. -/
def crPass1Spec : List Char → List Char
  | [] => []
  | [c] => if c = '\r' then ['\r', '\n'] else [c]
  | c :: d :: rest =>
    if c = '\r' then
      if d = '\n' then '\r' :: '\n' :: crPass1Spec rest
      else '\r' :: '\n' :: crPass1Spec (d :: rest)
    else c :: crPass1Spec (d :: rest)

/-- Specification scanner for the whole normalization: `\r\n` is kept, a lone
`\r` becomes `\r\n`, a lone `\n` becomes `\r\n`, every other character is
copied unchanged. -/
def crlfSpec : List Char → List Char
  | [] => []
  | [c] => if c = '\r' ∨ c = '\n' then ['\r', '\n'] else [c]
  | c :: d :: rest =>
    if c = '\r' then
      if d = '\n' then '\r' :: '\n' :: crlfSpec rest
      else '\r' :: '\n' :: crlfSpec (d :: rest)
    else if c = '\n' then '\r' :: '\n' :: crlfSpec (d :: rest)
    else c :: crlfSpec (d :: rest)

/-- Decides that every line ending is a CRLF pair: every `\r` is immediately
followed by `\n` and every `\n` is immediately preceded by `\r`. -/
def crlfOnly : List Char → Bool
  | [] => true
  | [c] => ¬ (c = '\r' ∨ c = '\n')
  | c :: d :: rest =>
    if c = '\r' then
      if d = '\n' then crlfOnly rest else false
    else if c = '\n' then false
    else crlfOnly (d :: rest)

theorem crPass1Spec_cons_ne {c : Char} (h : c ≠ '\r') (t : List Char) :
    crPass1Spec (c :: t) = c :: crPass1Spec t := by
  cases t with
  | nil => simp [crPass1Spec, h]
  | cons d rest => simp [crPass1Spec, h]

theorem crPass1Spec_crlf (t : List Char) :
    crPass1Spec ('\r' :: '\n' :: t) = '\r' :: '\n' :: crPass1Spec t := by
  simp [crPass1Spec]

theorem crPass1Spec_cr_lone {t : List Char} (h : t.head? ≠ some '\n') :
    crPass1Spec ('\r' :: t) = '\r' :: '\n' :: crPass1Spec t := by
  cases t with
  | nil => simp [crPass1Spec]
  | cons d rest =>
    simp at h
    simp [crPass1Spec, h]

theorem crPass1Spec_append_mid {mid : List Char} (h : '\r' ∉ mid) (l : List Char) :
    crPass1Spec (mid ++ l) = mid ++ crPass1Spec l := by
  induction mid with
  | nil => simp
  | cons c rest ih =>
    have hc : c ≠ '\r' := fun hc => h (by simp [hc])
    have hr : '\r' ∉ rest := fun hm => h (by simp [hm])
    rw [List.cons_append, crPass1Spec_cons_ne hc, ih hr]
    rfl

theorem crPass1Spec_no_cr {l : List Char} (h : '\r' ∉ l) : crPass1Spec l = l := by
  have := crPass1Spec_append_mid h []
  simpa [crPass1Spec] using this

theorem pass1Go_eq (fuel : Nat) : ∀ (done rest : List Char), rest.length + 1 ≤ fuel →
    pass1Go fuel (done ++ rest) done.length = done ++ crPass1Spec rest := by
  induction fuel with
  | zero => intro done rest h; omega
  | succ fuel ih =>
    intro done rest hfuel
    have hdrop : (done ++ rest).drop done.length = rest := List.drop_left done rest
    cases hfc : findChar '\r' rest with
    | none =>
      have hnone : findCharFrom '\r' (done ++ rest) done.length = none := by
        simp [findCharFrom, hdrop, hfc]
      simp only [pass1Go, hnone]
      rw [crPass1Spec_no_cr (findChar_none hfc)]
    | some j =>
      have hfind : findCharFrom '\r' (done ++ rest) done.length = some (j + done.length) := by
        simp [findCharFrom, hdrop, hfc]
      simp only [pass1Go, hfind]
      obtain ⟨hdropj, hmidcr⟩ := findChar_some hfc
      have hjlen : j < rest.length := by
        by_contra hlt
        have : rest.drop j = [] := List.drop_eq_nil_of_le (by omega)
        rw [this] at hdropj
        exact List.noConfusion hdropj
      -- Decompose `rest` as `mid ++ '\r' :: tail`.
      obtain ⟨mid, tail, hrest, hmidlen, hmid⟩ :
          ∃ mid tail, rest = mid ++ '\r' :: tail ∧ mid.length = j ∧ '\r' ∉ mid := by
        refine ⟨rest.take j, rest.drop (j + 1), ?_, ?_, hmidcr⟩
        · conv_lhs => rw [← List.take_append_drop j rest]
          rw [hdropj]
        · rw [List.length_take]
          omega
      have hstate : done ++ rest = (done ++ mid) ++ '\r' :: tail := by
        rw [hrest, List.append_assoc]
      have hAlen : (done ++ mid).length = j + done.length := by
        simp [hmidlen]; omega
      have hstate2 : done ++ rest = ((done ++ mid) ++ ['\r']) ++ tail := by
        rw [hstate]; simp
      have hA1len : ((done ++ mid) ++ ['\r']).length = j + done.length + 1 := by
        simp [hmidlen]; omega
      have hget : (done ++ rest)[j + done.length + 1]? = tail.head? := by
        rw [← List.head?_drop, hstate2, ← hA1len, List.drop_left]
      have htake : (done ++ rest).take (j + done.length) = done ++ mid := by
        rw [hstate, ← hAlen, List.take_left]
      have hdrop1 : (done ++ rest).drop (j + done.length + 1) = tail := by
        rw [hstate2, ← hA1len, List.drop_left]
      have htaillen : tail.length + 1 + j = rest.length := by
        rw [hrest]
        simp [hmidlen]
        omega
      by_cases hcase : tail.head? = some '\n'
      · -- `\r\n` pair: the source skips past the `\r`.
        obtain ⟨t2, htail2⟩ : ∃ t2, tail = '\n' :: t2 := by
          cases tail with
          | nil => simp at hcase
          | cons t ts =>
            simp at hcase
            exact ⟨ts, by rw [hcase]⟩
        have hlen2 : j + done.length + 1 < (done ++ rest).length := by
          have : 0 < tail.length := by rw [htail2]; simp
          simp [List.length_append]
          omega
        have hcond : ¬ (j + done.length + 1 ≥ (done ++ rest).length ∨
            (done ++ rest)[j + done.length + 1]? ≠ some '\n') := by
          push_neg
          exact ⟨by omega, by rw [hget]; exact hcase⟩
        rw [if_neg hcond]
        rw [hstate2, ← hA1len, ih ((done ++ mid) ++ ['\r']) tail (by omega)]
        rw [hrest, crPass1Spec_append_mid hmid, htail2, crPass1Spec_crlf]
        have : crPass1Spec ('\n' :: t2) = '\n' :: crPass1Spec t2 := by
          exact crPass1Spec_cons_ne (by decide) t2
        rw [this]
        simp
      · -- Lone `\r`: the branch condition of the source holds.
        have hcond : j + done.length + 1 ≥ (done ++ rest).length ∨
            (done ++ rest)[j + done.length + 1]? ≠ some '\n' := by
          right; rw [hget]; exact hcase
        rw [if_pos hcond, htake, hdrop1]
        have hsplice : done ++ mid ++ ['\r', '\n'] ++ tail =
            (done ++ (mid ++ ['\r', '\n'])) ++ tail := by simp
        have hpos : j + done.length + 2 = (done ++ (mid ++ ['\r', '\n'])).length := by
          simp [hmidlen]; omega
        rw [hsplice, hpos, ih (done ++ (mid ++ ['\r', '\n'])) tail (by omega)]
        rw [hrest, crPass1Spec_append_mid hmid, crPass1Spec_cr_lone hcase]
        simp

theorem pass2_ne_cr {p1 p2 : Option Char} (h1 : p1 ≠ some '\r') (h2 : p2 ≠ some '\r')
    (l : List Char) : pass2 p1 l = pass2 p2 l := by
  cases l with
  | nil => rfl
  | cons c rest => simp [pass2, h1, h2]

theorem crlfSpec_cons_ne {c : Char} (h1 : c ≠ '\r') (h2 : c ≠ '\n') (t : List Char) :
    crlfSpec (c :: t) = c :: crlfSpec t := by
  cases t with
  | nil => simp [crlfSpec, h1, h2]
  | cons d rest => simp [crlfSpec, h1, h2]

theorem crlfSpec_lf (t : List Char) : crlfSpec ('\n' :: t) = '\r' :: '\n' :: crlfSpec t := by
  cases t with
  | nil => simp [crlfSpec]
  | cons d rest => simp [crlfSpec]

theorem crlfSpec_crlf (t : List Char) :
    crlfSpec ('\r' :: '\n' :: t) = '\r' :: '\n' :: crlfSpec t := by
  simp [crlfSpec]

theorem crlfSpec_cr_lone {t : List Char} (h : t.head? ≠ some '\n') :
    crlfSpec ('\r' :: t) = '\r' :: '\n' :: crlfSpec t := by
  cases t with
  | nil => simp [crlfSpec]
  | cons d rest =>
    simp at h
    simp [crlfSpec, h]

theorem pass2_crPass1 : ∀ (l : List Char) (prev : Option Char), prev ≠ some '\r' →
    pass2 prev (crPass1Spec l) = crlfSpec l := by
  intro l
  induction l using crlfSpec.induct with
  | case1 =>
    intro prev hprev
    rfl
  | case2 c hc =>
    intro prev hprev
    rcases hc with hc | hc <;> subst hc <;> simp [crPass1Spec, crlfSpec, pass2, hprev]
  | case3 c hc =>
    intro prev hprev
    push_neg at hc
    simp [crPass1Spec, crlfSpec, pass2, hc.1, hc.2]
  | case4 rest ih =>
    intro prev hprev
    rw [crPass1Spec_crlf, crlfSpec_crlf]
    simp [pass2, hprev]
    exact ih (some '\n') (by simp)
  | case5 d rest hd ih =>
    intro prev hprev
    have hhead : (d :: rest).head? ≠ some '\n' := by simpa using hd
    rw [crPass1Spec_cr_lone hhead, crlfSpec_cr_lone hhead]
    simp [pass2, hprev]
    exact ih (some '\n') (by simp)
  | case6 d rest hx ih =>
    intro prev hprev
    rw [crPass1Spec_cons_ne (by decide), crlfSpec_lf]
    simp [pass2, hprev]
    exact ih (some '\n') (by simp)
  | case7 c d rest hc hn ih =>
    intro prev hprev
    rw [crPass1Spec_cons_ne hc, crlfSpec_cons_ne hc hn]
    simp [pass2, hn]
    exact ih (some c) (by simp [hc])

theorem normalizeLineEndings_eq_spec (s : List Char) :
    normalizeLineEndings s = crlfSpec s := by
  unfold normalizeLineEndings
  have h1 : pass1Go (s.length + 1) s 0 = crPass1Spec s := by
    have := pass1Go_eq (s.length + 1) [] s (le_refl _)
    simpa using this
  rw [h1]
  exact pass2_crPass1 s none (by simp)

theorem crlfOnly_cons_ne {c : Char} (h1 : c ≠ '\r') (h2 : c ≠ '\n') (t : List Char) :
    crlfOnly (c :: t) = crlfOnly t := by
  cases t with
  | nil => simp [crlfOnly, h1, h2]
  | cons d rest => simp [crlfOnly, h1, h2]

theorem crlfOnly_crlf (t : List Char) : crlfOnly ('\r' :: '\n' :: t) = crlfOnly t := by
  simp [crlfOnly]

theorem crlfOnly_crlfSpec : ∀ l : List Char, crlfOnly (crlfSpec l) = true := by
  intro l
  induction l using crlfSpec.induct with
  | case1 => rfl
  | case2 c hc =>
    simp [crlfSpec, hc, crlfOnly]
  | case3 c hc =>
    push_neg at hc
    simp [crlfSpec, hc.1, hc.2, crlfOnly]
  | case4 rest ih =>
    rw [crlfSpec_crlf, crlfOnly_crlf]
    exact ih
  | case5 d rest hd ih =>
    have hhead : (d :: rest).head? ≠ some '\n' := by simpa using hd
    rw [crlfSpec_cr_lone hhead, crlfOnly_crlf]
    exact ih
  | case6 d rest hx ih =>
    rw [crlfSpec_lf, crlfOnly_crlf]
    exact ih
  | case7 c d rest hc hn ih =>
    rw [crlfSpec_cons_ne hc hn, crlfOnly_cons_ne hc hn]
    exact ih

/-- Characters that remain after deleting every CR and LF. -/
def stripEol (l : List Char) : List Char :=
  l.filter (fun c => !(c == '\r' || c == '\n'))

theorem stripEol_crlfSpec : ∀ l : List Char, stripEol (crlfSpec l) = stripEol l := by
  intro l
  induction l using crlfSpec.induct with
  | case1 => rfl
  | case2 c hc =>
    rcases hc with hc | hc <;> subst hc <;> simp [crlfSpec, stripEol]
  | case3 c hc =>
    push_neg at hc
    simp [crlfSpec, hc.1, hc.2, stripEol]
  | case4 rest ih =>
    rw [crlfSpec_crlf]
    simpa [stripEol] using ih
  | case5 d rest hd ih =>
    have hhead : (d :: rest).head? ≠ some '\n' := by simpa using hd
    rw [crlfSpec_cr_lone hhead]
    simpa [stripEol] using ih
  | case6 d rest hx ih =>
    rw [crlfSpec_lf]
    simpa [stripEol] using ih
  | case7 c d rest hc hn ih =>
    rw [crlfSpec_cons_ne hc hn]
    simpa [stripEol, hc, hn] using ih

/-- Model of the `replaceAll` loop (src/src/XmlIndenter.cpp lines 20-30): repeatedly
find `fr` starting at `pos`, splice in `rep` (the `to` argument of the source), and resume scanning immediately
after the inserted replacement.  The loop is modelled with explicit fuel;
every iteration with a non-empty `fr` strictly decreases `result.length - pos`
by at least `fr.length`, so fuel `length + 1` suffices. -/
def replaceAllGo (fuel : Nat) (fr rep : List Char) (result : List Char) (pos : Nat) : List Char :=
  match fuel with
  | 0 => result
  | fuel + 1 =>
    match findFrom fr result pos with
    | none => result
    | some p =>
      replaceAllGo fuel fr rep (result.take p ++ rep ++ result.drop (p + fr.length)) (p + rep.length)

/-- Model of `replaceAll` (src/src/XmlIndenter.cpp lines 20-30).  On an empty
`fr` the C++ loop never terminates; the model returns the exhausted-fuel state
in that (never exercised) case. -/
def replaceAll (source fr rep : List Char) : List Char :=
  replaceAllGo (source.length + 1) fr rep source 0

theorem findFrom_none_of_ge {fr result : List Char} {pos : Nat} (hfr : fr ≠ [])
    (h : result.length ≤ pos) : findFrom fr result pos = none := by
  have hd : result.drop pos = [] := List.drop_eq_nil_of_le h
  cases fr with
  | nil => exact absurd rfl hfr
  | cons a b => simp [findFrom, hd, findSub, List.isEmpty]

theorem replaceAllGo_fuel {fr rep : List Char} (hfr : fr ≠ []) :
    ∀ f1 f2 result pos, result.length + 1 ≤ pos + f1 → result.length + 1 ≤ pos + f2 →
    replaceAllGo f1 fr rep result pos = replaceAllGo f2 fr rep result pos := by
  intro f1
  induction f1 with
  | zero =>
    intro f2 result pos h1 h2
    have hnone : findFrom fr result pos = none := findFrom_none_of_ge hfr (by omega)
    cases f2 with
    | zero => rfl
    | succ g2 => simp [replaceAllGo, hnone]
  | succ g ih =>
    intro f2 result pos h1 h2
    cases f2 with
    | zero =>
      have hnone : findFrom fr result pos = none := findFrom_none_of_ge hfr (by omega)
      simp [replaceAllGo, hnone]
    | succ g2 =>
      cases hf : findFrom fr result pos with
      | none => simp [replaceAllGo, hf]
      | some p =>
        obtain ⟨hpos, hpre, hlen⟩ := findFrom_some hfr hf
        have hfr1 : 1 ≤ fr.length := by
          have := List.length_pos.mpr hfr
          omega
        have hres : (result.take p ++ rep ++ result.drop (p + fr.length)).length =
            p + rep.length + (result.length - (p + fr.length)) := by
          simp [List.length_take, List.length_drop]
          omega
        simp only [replaceAllGo, hf]
        exact ih g2 _ _ (by rw [hres]; omega) (by rw [hres]; omega)

/-- Model of the preprocessing step of `indentXML` (src/src/XmlIndenter.cpp lines
78-83): remove all content until the first `<` is reached (the content is
returned unchanged when it contains no `<`). -/
def dropToFirstLt (s : List Char) : List Char :=
  match findChar '<' s with
  | some i => s.drop i
  | none => s

/-- The content handed to the QuickXml formatter by `indentXML`
(src/src/XmlIndenter.cpp lines 75-87): drop everything before the first `<`,
then normalize line endings. -/
def preprocessedContent (s : List Char) : List Char :=
  normalizeLineEndings (dropToFirstLt s)

/-- The skip condition of the self-closing-tag loop: the occurrence is left
alone when it has no preceding character or the preceding character is a space
or a double quote. -/
def prevOkSlashGt (prev : Option Char) : Bool :=
  match prev with
  | none => true
  | some c => c == ' ' || c == '"'

/-- Model of the self-closing-tag spacing loop of `indentXML`
(src/src/XmlIndenter.cpp lines 122-140): find `/>` from `pos`; when it has a
preceding character that is neither a space nor a quote, replace it with
` />` and resume after the replacement, otherwise skip past it.  Fuel-based
as the other loops. -/
def slashGtGo (fuel : Nat) (result : List Char) (pos : Nat) : List Char :=
  match fuel with
  | 0 => result
  | fuel + 1 =>
    match findFrom ['/', '>'] result pos with
    | none => result
    | some p =>
      if 0 < p ∧ result[p - 1]? ≠ some ' ' ∧ result[p - 1]? ≠ some '"' then
        slashGtGo fuel (result.take p ++ [' ', '/', '>'] ++ result.drop (p + 2)) (p + 3)
      else
        slashGtGo fuel result (p + 2)

/-- Wrapper for the self-closing-tag spacing loop started at position 0. -/
def slashGtPass (s : List Char) : List Char := slashGtGo (s.length + 1) s 0

/-- Specification scanner equivalent to `slashGtGo` started at 0: walk the
string remembering the previous character; at each `/>` occurrence insert a
space unless the previous character is a space or quote (or the occurrence is
at the start). -/
def slashGtSpec (prev : Option Char) : List Char → List Char
  | [] => []
  | [c] => [c]
  | c :: d :: rest =>
    if c = '/' ∧ d = '>' then
      if prevOkSlashGt prev then '/' :: '>' :: slashGtSpec (some '>') rest
      else ' ' :: '/' :: '>' :: slashGtSpec (some '>') rest
    else c :: slashGtSpec (some c) (d :: rest)

/-- Decides that every `/>` occurrence that has a preceding character is
preceded by a space or a double quote; `prev` is the character preceding the
scanned part (`none` at the very start of the string). -/
def noBadSlashGt (prev : Option Char) : List Char → Bool
  | [] => true
  | [_c] => true
  | c :: d :: rest =>
    if c = '/' ∧ d = '>' then prevOkSlashGt prev && noBadSlashGt (some '>') rest
    else noBadSlashGt (some c) (d :: rest)

/-- Last element of `mid`, defaulting to `prev` when `mid` is empty: the
previous-character state of a scanner after walking `mid`. -/
def lastOr (prev : Option Char) : List Char → Option Char
  | [] => prev
  | c :: rest => lastOr (some c) rest

theorem lastOr_append (prev : Option Char) (a b : List Char) :
    lastOr prev (a ++ b) = lastOr (lastOr prev a) b := by
  induction a generalizing prev with
  | nil => rfl
  | cons c rest ih => simp [lastOr, ih]

theorem lastOr_concat (prev : Option Char) (a : List Char) (c : Char) :
    lastOr prev (a ++ [c]) = some c := by
  rw [lastOr_append]
  rfl

theorem isPrefixOf_slashGt {c d : Char} {rest : List Char} :
    (['/', '>'].isPrefixOf (c :: d :: rest)) = true ↔ (c = '/' ∧ d = '>') := by
  simp [List.isPrefixOf]
  constructor
  · rintro ⟨h1, h2⟩
    exact ⟨h1.symm, h2.symm⟩
  · rintro ⟨h1, h2⟩
    exact ⟨h1.symm, h2.symm⟩

theorem noBad_step {c : Char} {t : List Char} (prev : Option Char)
    (h : ¬ (c = '/' ∧ t.head? = some '>')) :
    noBadSlashGt prev (c :: t) = noBadSlashGt (some c) t := by
  cases t with
  | nil => rfl
  | cons d rest =>
    have h2 : ¬ (c = '/' ∧ d = '>') := by simpa using h
    simp [noBadSlashGt, h2]

theorem noBad_occ (prev : Option Char) (t : List Char) :
    noBadSlashGt prev ('/' :: '>' :: t) =
      (prevOkSlashGt prev && noBadSlashGt (some '>') t) := by
  simp [noBadSlashGt]

theorem noBad_congr {p1 p2 : Option Char} (h : prevOkSlashGt p1 = prevOkSlashGt p2) :
    ∀ l, noBadSlashGt p1 l = noBadSlashGt p2 l := by
  intro l
  match l with
  | [] => rfl
  | [c] => rfl
  | c :: d :: rest =>
    by_cases hc : c = '/' ∧ d = '>'
    · obtain ⟨hc1, hd1⟩ := hc
      subst hc1 hd1
      rw [noBad_occ, noBad_occ, h]
    · have hh : ¬ (c = '/' ∧ (d :: rest).head? = some '>') := by simpa using hc
      rw [noBad_step p1 hh, noBad_step p2 hh]

theorem slashGtSpec_head (prev : Option Char) (l : List Char) :
    (slashGtSpec prev l).head? = l.head? ∨ (slashGtSpec prev l).head? = some ' ' := by
  match l with
  | [] => left; rfl
  | [c] => left; rfl
  | c :: d :: rest =>
    by_cases hc : c = '\x2f' ∧ d = '>'
    · by_cases hok : prevOkSlashGt prev = true
      · left; simp [slashGtSpec, hc, hok]
      · right; simp [slashGtSpec, hc, hok]
    · left; simp [slashGtSpec, hc]

theorem slashGtSpec_good : ∀ (prev : Option Char) (l : List Char),
    noBadSlashGt prev (slashGtSpec prev l) = true := by
  intro prev l
  induction prev, l using slashGtSpec.induct with
  | case1 prev => rfl
  | case2 prev c => rfl
  | case3 prev c d rest hc hok ih =>
    obtain ⟨hc1, hd1⟩ := hc
    subst hc1 hd1
    have hstep : slashGtSpec prev ('/' :: '>' :: rest) =
        '/' :: '>' :: slashGtSpec (some '>') rest := by
      simp [slashGtSpec, hok]
    rw [hstep, noBad_occ, hok, ih]
    rfl
  | case4 prev c d rest hc hok ih =>
    obtain ⟨hc1, hd1⟩ := hc
    subst hc1 hd1
    have hstep : slashGtSpec prev ('/' :: '>' :: rest) =
        ' ' :: '/' :: '>' :: slashGtSpec (some '>') rest := by
      simp [slashGtSpec, hok]
    rw [hstep, noBad_step prev (by simp), noBad_occ]
    simp [prevOkSlashGt]
    exact ih
  | case5 prev c d rest hc ih =>
    have hstep : slashGtSpec prev (c :: d :: rest) = c :: slashGtSpec (some c) (d :: rest) := by
      simp [slashGtSpec, hc]
    rw [hstep]
    have hhead : ¬ (c = '/' ∧ (slashGtSpec (some c) (d :: rest)).head? = some '>') := by
      rintro ⟨hc1, hh⟩
      have hd1 : d ≠ '>' := fun hd1 => hc ⟨hc1, hd1⟩
      rcases slashGtSpec_head (some c) (d :: rest) with h1 | h1
      · rw [hh] at h1
        simp at h1
        exact hd1 h1.symm
      · rw [hh] at h1
        simp at h1
    rw [noBad_step prev hhead]
    exact ih

theorem slashGtSpec_id {l : List Char} (h : ∀ i, ¬ (['/', '>'].isPrefixOf (l.drop i)) = true) :
    ∀ prev, slashGtSpec prev l = l := by
  match l with
  | [] => intro prev; rfl
  | [c] => intro prev; rfl
  | c :: d :: rest =>
    intro prev
    have h0 : ¬ (c = '/' ∧ d = '>') := by
      intro hc
      exact h 0 (by rw [List.drop_zero]; exact isPrefixOf_slashGt.mpr hc)
    have hstep : slashGtSpec prev (c :: d :: rest) = c :: slashGtSpec (some c) (d :: rest) := by
      simp [slashGtSpec, h0]
    rw [hstep, slashGtSpec_id (fun i => h (i + 1)) (some c)]

theorem slashGtSpec_copy : ∀ (mid : List Char) (X : List Char) (prev : Option Char),
    (∀ i, i < mid.length → ¬ (['/', '>'].isPrefixOf ((mid ++ X).drop i)) = true) →
    slashGtSpec prev (mid ++ X) = mid ++ slashGtSpec (lastOr prev mid) X := by
  intro mid
  induction mid with
  | nil => intro X prev _; rfl
  | cons c mid' ih =>
    intro X prev hmin
    cases hmx : mid' ++ X with
    | nil =>
      have hmid' : mid' = [] := by
        cases mid' with
        | nil => rfl
        | cons a b => simp at hmx
      subst hmid'
      simp at hmx
      subst hmx
      rfl
    | cons d rest2 =>
      have h0 : ¬ (c = '/' ∧ d = '>') := by
        intro hc
        refine hmin 0 (by simp) ?_
        rw [List.drop_zero, List.cons_append, hmx]
        exact isPrefixOf_slashGt.mpr hc
      have hstep : slashGtSpec prev (c :: mid' ++ X) = c :: slashGtSpec (some c) (mid' ++ X) := by
        rw [List.cons_append, hmx]
        have : slashGtSpec prev (c :: d :: rest2) = c :: slashGtSpec (some c) (d :: rest2) := by
          simp [slashGtSpec, h0]
        rw [this, ← hmx]
      rw [hstep, ih X (some c) ?hmin2]
      · simp [lastOr]
      case hmin2 =>
        intro i hi
        have := hmin (i + 1) (by simp; omega)
        simpa using this

theorem slashGtGo_eq (fuel : Nat) : ∀ (done rest : List Char), rest.length + 1 ≤ fuel →
    slashGtGo fuel (done ++ rest) done.length = done ++ slashGtSpec (lastOr none done) rest := by
  induction fuel with
  | zero => intro done rest h; omega
  | succ fuel ih =>
    intro done rest hfuel
    have hdrop : (done ++ rest).drop done.length = rest := List.drop_left done rest
    cases hfs : findSub ['/', '>'] rest with
    | none =>
      have hnone : findFrom ['/', '>'] (done ++ rest) done.length = none := by
        simp [findFrom, hdrop, hfs]
      simp only [slashGtGo, hnone]
      rw [slashGtSpec_id (fun i => findSub_none (by simp) hfs i) (lastOr none done)]
    | some j =>
      have hfind : findFrom ['/', '>'] (done ++ rest) done.length = some (j + done.length) := by
        simp [findFrom, hdrop, hfs]
      simp only [slashGtGo, hfind]
      obtain ⟨hpre, hmin⟩ := findSub_some hfs
      have hjlen := findSub_some_length hfs
      simp at hjlen
      -- Decompose `rest` as `mid ++ '/' :: '>' :: tail`.
      obtain ⟨mid, tail, hrest, hmidlen⟩ :
          ∃ mid tail, rest = mid ++ '/' :: '>' :: tail ∧ mid.length = j := by
        refine ⟨rest.take j, rest.drop (j + 2), ?_, by rw [List.length_take]; omega⟩
        have hd : rest.drop j = '/' :: '>' :: rest.drop (j + 2) := by
          have h1 := List.isPrefixOf_iff_prefix.mp hpre
          obtain ⟨t, ht⟩ := h1
          have h2 : rest.drop (j + 2) = t := by
            have h3 : (rest.drop j).drop 2 = t := by rw [← ht]; rfl
            rw [List.drop_drop] at h3
            exact h3
          rw [h2, ← ht]
          rfl
        conv_lhs => rw [← List.take_append_drop j rest]
        rw [hd]
      have hA : done ++ rest = (done ++ mid) ++ '/' :: '>' :: tail := by
        rw [hrest, List.append_assoc]
      have hAlen : (done ++ mid).length = j + done.length := by simp [hmidlen]; omega
      have htake : (done ++ rest).take (j + done.length) = done ++ mid := by
        rw [hA, ← hAlen, List.take_left]
      have hdrop2 : (done ++ rest).drop (j + done.length + 2) = tail := by
        have h2 : done ++ rest = ((done ++ mid) ++ ['/', '>']) ++ tail := by rw [hA]; simp
        have h3 : ((done ++ mid) ++ ['/', '>']).length = j + done.length + 2 := by
          simp [hmidlen]; omega
        rw [h2, ← h3, List.drop_left]
      have hget : ∀ A' a, done ++ mid = A' ++ [a] →
          (done ++ rest)[j + done.length - 1]? = some a := by
        intro A' a hconc
        have hAlen' : (done ++ mid).length = A'.length + 1 := by simp [hconc]
        have hidx : j + done.length - 1 = A'.length := by omega
        rw [hidx, ← List.head?_drop, hA, hconc]
        rw [show (A' ++ [a]) ++ '/' :: '>' :: tail = A' ++ ([a] ++ '/' :: '>' :: tail) by simp]
        rw [List.drop_left]
        rfl
      have hmin2 : ∀ i, i < mid.length →
          ¬ (['/', '>'].isPrefixOf ((mid ++ ('/' :: '>' :: tail)).drop i)) = true := by
        intro i hi
        rw [← hrest]
        exact hmin i (by omega)
      have hspec : slashGtSpec (lastOr none done) rest =
          mid ++ slashGtSpec (lastOr none (done ++ mid)) ('/' :: '>' :: tail) := by
        rw [hrest, slashGtSpec_copy mid ('/' :: '>' :: tail) (lastOr none done) hmin2,
          ← lastOr_append]
      have hfuelrest : rest.length = j + 2 + tail.length := by
        rw [hrest]; simp [hmidlen]; omega
      by_cases hok : prevOkSlashGt (lastOr none (done ++ mid)) = true
      · -- Skip case: the occurrence is already acceptably preceded.
        have hcond : ¬ (0 < j + done.length ∧ (done ++ rest)[j + done.length - 1]? ≠ some ' ' ∧
            (done ++ rest)[j + done.length - 1]? ≠ some '"') := by
          rcases List.eq_nil_or_concat (done ++ mid) with hnil | ⟨A', a, hconc⟩
          · have hz : j + done.length = 0 := by
              obtain ⟨hd0, hm0⟩ := List.append_eq_nil.mp hnil
              have hl1 : mid.length = 0 := by rw [hm0]; rfl
              have hl2 : done.length = 0 := by rw [hd0]; rfl
              omega
            intro hcon
            exact absurd hcon.1 (by omega)
          · rw [List.concat_eq_append] at hconc
            have hlast : lastOr none (done ++ mid) = some a := by rw [hconc, lastOr_concat]
            rw [hlast] at hok
            simp [prevOkSlashGt] at hok
            rw [hget A' a hconc]
            rcases hok with hok | hok
            · subst hok
              intro hcon
              exact hcon.2.1 rfl
            · subst hok
              intro hcon
              exact hcon.2.2 rfl
        rw [if_neg hcond]
        have hstate : done ++ rest = ((done ++ mid) ++ ['/', '>']) ++ tail := by rw [hA]; simp
        have hposlen : j + done.length + 2 = ((done ++ mid) ++ ['/', '>']).length := by
          simp [hmidlen]; omega
        rw [hstate, hposlen, ih ((done ++ mid) ++ ['/', '>']) tail (by omega)]
        rw [hspec]
        have hocc : slashGtSpec (lastOr none (done ++ mid)) ('/' :: '>' :: tail) =
            '/' :: '>' :: slashGtSpec (some '>') tail := by
          simp [slashGtSpec, hok]
        rw [hocc]
        have hl2 : lastOr none ((done ++ mid) ++ ['/', '>']) = some '>' := by
          rw [lastOr_append]
          rfl
        rw [hl2]
        simp
      · -- Insert case: a space is inserted before the occurrence.
        obtain ⟨A', a, hconc⟩ : ∃ A' a, done ++ mid = A' ++ [a] := by
          rcases List.eq_nil_or_concat (done ++ mid) with hnil | ⟨A', a, hconc⟩
          · rw [hnil] at hok
            simp [lastOr, prevOkSlashGt] at hok
          · rw [List.concat_eq_append] at hconc
            exact ⟨A', a, hconc⟩
        have hlast : lastOr none (done ++ mid) = some a := by rw [hconc, lastOr_concat]
        have hok2 := hok
        rw [hlast] at hok2
        simp [prevOkSlashGt] at hok2
        have hpos0 : 0 < j + done.length := by
          have : (done ++ mid).length = A'.length + 1 := by simp [hconc]
          omega
        have hcond : (0 < j + done.length ∧ (done ++ rest)[j + done.length - 1]? ≠ some ' ' ∧
            (done ++ rest)[j + done.length - 1]? ≠ some '"') := by
          refine ⟨hpos0, ?_, ?_⟩
          · rw [hget A' a hconc]
            simp
            exact fun hcc => hok2.1 hcc
          · rw [hget A' a hconc]
            simp
            exact fun hcc => hok2.2 hcc
        rw [if_pos hcond, htake, hdrop2]
        have hstate : (done ++ mid) ++ [' ', '/', '>'] ++ tail =
            ((done ++ mid) ++ [' ', '/', '>']) ++ tail := by simp
        have hposlen : j + done.length + 3 = ((done ++ mid) ++ [' ', '/', '>']).length := by
          simp [hmidlen]; omega
        rw [hstate, hposlen, ih ((done ++ mid) ++ [' ', '/', '>']) tail (by omega)]
        rw [hspec]
        have hocc : slashGtSpec (lastOr none (done ++ mid)) ('/' :: '>' :: tail) =
            ' ' :: '/' :: '>' :: slashGtSpec (some '>') tail := by
          simp [slashGtSpec, hok]
        rw [hocc]
        have hl2 : lastOr none ((done ++ mid) ++ [' ', '/', '>']) = some '>' := by
          rw [lastOr_append]
          rfl
        rw [hl2]
        simp

/-- The self-closing-tag spacing pass computed by its left-to-right scanner. -/
theorem slashGtPass_eq_spec (s : List Char) : slashGtPass s = slashGtSpec none s := by
  unfold slashGtPass
  have := slashGtGo_eq (s.length + 1) [] s (le_refl _)
  simpa [lastOr] using this

theorem crlfSpec_head (d : Char) (rest : List Char) :
    (crlfSpec (d :: rest)).head? = some d ∨ (crlfSpec (d :: rest)).head? = some '\r' := by
  by_cases hr : d = '\r'
  · right
    subst hr
    cases rest with
    | nil => rfl
    | cons e rest2 =>
      by_cases he : e = '\n'
      · subst he; rw [crlfSpec_crlf]; rfl
      · rw [crlfSpec_cr_lone (by simpa using he)]; rfl
  · by_cases hn : d = '\n'
    · right
      subst hn
      rw [crlfSpec_lf]
      rfl
    · left
      rw [crlfSpec_cons_ne hr hn]
      rfl

theorem noBad_crlfSpec : ∀ (l : List Char) (prev : Option Char),
    noBadSlashGt prev l = true → noBadSlashGt prev (crlfSpec l) = true := by
  intro l
  induction l using crlfSpec.induct with
  | case1 =>
    intro prev _
    rfl
  | case2 c hc =>
    intro prev _
    rcases hc with hc | hc <;> subst hc <;> simp [crlfSpec, noBadSlashGt]
  | case3 c hc =>
    intro prev _
    push_neg at hc
    simp [crlfSpec, hc.1, hc.2, noBadSlashGt]
  | case4 rest ih =>
    intro prev h
    rw [noBad_step prev (by simp), noBad_step (some '\r') (by simp)] at h
    rw [crlfSpec_crlf, noBad_step prev (by simp), noBad_step (some '\r') (by simp)]
    exact ih (some '\n') h
  | case5 d rest hd ih =>
    intro prev h
    have hhead : (d :: rest).head? ≠ some '\n' := by simpa using hd
    rw [noBad_step prev (by simp)] at h
    rw [crlfSpec_cr_lone hhead, noBad_step prev (by simp), noBad_step (some '\r') (by simp)]
    refine ih (some '\n') ?_
    rw [@noBad_congr (some '\n') (some '\r') (by decide) (d :: rest)]
    exact h
  | case6 d rest hx ih =>
    intro prev h
    rw [noBad_step prev (by simp)] at h
    rw [crlfSpec_lf, noBad_step prev (by simp), noBad_step (some '\r') (by simp)]
    exact ih (some '\n') h
  | case7 c d rest hc hn ih =>
    intro prev h
    by_cases hocc : c = '/' ∧ d = '>'
    · obtain ⟨hc1, hd1⟩ := hocc
      subst hc1 hd1
      rw [noBad_occ] at h
      simp at h
      rw [crlfSpec_cons_ne hc hn, crlfSpec_cons_ne (by decide) (by decide), noBad_occ]
      have h2 := ih (some '/') (by rw [noBad_step (some '/') (by simp)]; exact h.2)
      rw [crlfSpec_cons_ne (by decide) (by decide)] at h2
      rw [noBad_step (some '/') (by simp)] at h2
      simp [h.1, h2]
    · rw [crlfSpec_cons_ne hc hn]
      rw [noBad_step prev (by simpa using hocc)] at h
      rw [noBad_step prev ?hh]
      · exact ih (some c) h
      case hh =>
        rintro ⟨hc1, hh⟩
        subst hc1
        have hd1 : d ≠ '>' := fun hd1 => hocc ⟨rfl, hd1⟩
        rcases crlfSpec_head d rest with h1 | h1 <;> rw [hh] at h1 <;> simp at h1
        · exact hd1 h1.symm

/-- The `<!--` delimiter. -/
def commentOpen : List Char := ['<', '!', '-', '-']

/-- The `-->` delimiter. -/
def commentClose : List Char := ['-', '-', '>']

/-- Trim of the comment body (src/unnamed/part_000 lines 102-121): drop leading
and trailing space characters (only `' '`; the source uses
`find_first_not_of(' ')` and `find_last_not_of(' ')`, and its four branches
collapse to exactly this). -/
def trimSpaces (l : List Char) : List Char :=
  ((l.dropWhile (fun c => c == ' ')).reverse.dropWhile (fun c => c == ' ')).reverse

/-- Space collapsing of the comment body (src/unnamed/part_000 lines 123-143):
runs of spaces become a single space; `lastWasSpace` is the loop flag. -/
def collapseSpaces (lastWasSpace : Bool) : List Char → List Char
  | [] => []
  | c :: rest =>
    if c = ' ' then
      if lastWasSpace then collapseSpaces true rest
      else ' ' :: collapseSpaces true rest
    else c :: collapseSpaces false rest

/-- Rebuilding of a single-line comment (src/unnamed/part_000 lines 145-155):
an all-space or empty body becomes `<!-- -->`, any other body is wrapped with
exactly one space on each side. -/
def rewrapComment (content : List Char) : List Char :=
  let normalized := collapseSpaces false (trimSpaces content)
  if normalized.isEmpty then commentOpen ++ [' '] ++ commentClose
  else commentOpen ++ [' '] ++ normalized ++ [' '] ++ commentClose

/-- Model of the `formatSingleLineComments` loop (src/unnamed/part_000 lines
79-169).  `find("<!--", pos)`; on a hit, `find("-->", pos)`; a missing
terminator skips 4 characters; a comment containing a CR or LF is skipped
whole; otherwise the comment is replaced by its rewrapped body and scanning
resumes after the replacement.  When `endPos < pos + 4` the C++ computes the
`substr` length as a huge unsigned value, so `substr` takes everything to the
end of the string; the model reproduces that. -/
def fslcGo (fuel : Nat) (result : List Char) (pos : Nat) : List Char :=
  match fuel with
  | 0 => result
  | fuel + 1 =>
    match findFrom commentOpen result pos with
    | none => result
    | some p =>
      match findFrom commentClose result p with
      | none => fslcGo fuel result (p + 4)
      | some e =>
        if '\n' ∈ (result.drop p).take (e - p + 3) ∨ '\r' ∈ (result.drop p).take (e - p + 3) then
          fslcGo fuel result (e + 3)
        else
          fslcGo fuel
            (result.take p ++
              rewrapComment (if e < p + 4 then result.drop (p + 4)
                else (result.drop (p + 4)).take (e - (p + 4))) ++
              result.drop (e + 3))
            (p + (rewrapComment (if e < p + 4 then result.drop (p + 4)
                else (result.drop (p + 4)).take (e - (p + 4)))).length)

/-- Model of `formatSingleLineComments` (src/unnamed/part_000 lines 79-169). -/
def formatSingleLineComments (xml : List Char) : List Char :=
  fslcGo (xml.length + 1) xml 0

theorem findFrom_shift (pat A rest : List Char) (pos0 : Nat) :
    findFrom pat (A ++ rest) (A.length + pos0) = (findFrom pat rest pos0).map (· + A.length) := by
  simp only [findFrom]
  rw [List.drop_append]
  cases findSub pat (rest.drop pos0) with
  | none => rfl
  | some j => simp; omega

theorem fslcGo_shift : ∀ (fuel : Nat) (A rest : List Char) (pos0 : Nat),
    fslcGo fuel (A ++ rest) (A.length + pos0) = A ++ fslcGo fuel rest pos0 := by
  intro fuel
  induction fuel with
  | zero => intro A rest pos0; rfl
  | succ fuel ih =>
    intro A rest pos0
    rw [fslcGo, fslcGo]
    rw [findFrom_shift]
    cases hfo : findFrom commentOpen rest pos0 with
    | none => rfl
    | some p =>
      simp only [Option.map_some']
      rw [show p + A.length = A.length + p from by omega, findFrom_shift]
      cases hfc : findFrom commentClose rest p with
      | none =>
        simp only [Option.map_none']
        rw [show A.length + p + 4 = A.length + (p + 4) from by omega]
        exact ih A rest (p + 4)
      | some e =>
        simp only [Option.map_some']
        have hdropblock : (A ++ rest).drop (A.length + p) = rest.drop p := List.drop_append p
        rw [show e + A.length = A.length + e from by omega]
        rw [show A.length + e - (A.length + p) + 3 = e - p + 3 from by omega]
        rw [hdropblock]
        by_cases hml : '\n' ∈ (rest.drop p).take (e - p + 3) ∨ '\r' ∈ (rest.drop p).take (e - p + 3)
        · rw [if_pos hml, if_pos hml]
          rw [show A.length + e + 3 = A.length + (e + 3) from by omega]
          exact ih A rest (e + 3)
        · rw [if_neg hml, if_neg hml]
          have hdrop4 : (A ++ rest).drop (A.length + p + 4) = rest.drop (p + 4) := by
            rw [show A.length + p + 4 = A.length + (p + 4) from by omega]
            exact List.drop_append (p + 4)
          have hdrope3 : (A ++ rest).drop (A.length + e + 3) = rest.drop (e + 3) := by
            rw [show A.length + e + 3 = A.length + (e + 3) from by omega]
            exact List.drop_append (e + 3)
          have htakep : (A ++ rest).take (A.length + p) = A ++ rest.take p := List.take_append p
          have harith2 : A.length + e - (A.length + p + 4) = e - (p + 4) := by omega
          by_cases hef : e < p + 4
          · have hefA : A.length + e < A.length + p + 4 := by omega
            rw [if_pos hef, if_pos hefA, htakep, hdrop4, hdrope3]
            rw [show A ++ rest.take p ++ rewrapComment (rest.drop (p + 4)) ++ rest.drop (e + 3) =
                A ++ (rest.take p ++ rewrapComment (rest.drop (p + 4)) ++ rest.drop (e + 3))
                from by simp]
            rw [show A.length + p + (rewrapComment (rest.drop (p + 4))).length =
                A.length + (p + (rewrapComment (rest.drop (p + 4))).length) from by omega]
            exact ih A _ _
          · have hefA : ¬ (A.length + e < A.length + p + 4) := by omega
            rw [if_neg hef, if_neg hefA, htakep, hdrop4, hdrope3, harith2]
            rw [show A ++ rest.take p ++
                rewrapComment ((rest.drop (p + 4)).take (e - (p + 4))) ++ rest.drop (e + 3) =
                A ++ (rest.take p ++ rewrapComment ((rest.drop (p + 4)).take (e - (p + 4))) ++
                rest.drop (e + 3)) from by simp]
            rw [show A.length + p + (rewrapComment ((rest.drop (p + 4)).take (e - (p + 4)))).length =
                A.length + (p + (rewrapComment ((rest.drop (p + 4)).take (e - (p + 4)))).length)
                from by omega]
            exact ih A _ _

theorem findSub_eq_some {pat l : List Char} {j : Nat}
    (hpre : pat.isPrefixOf (l.drop j)) (hmin : ∀ i, i < j → ¬ pat.isPrefixOf (l.drop i)) :
    findSub pat l = some j := by
  induction l generalizing j with
  | nil =>
    cases j with
    | zero =>
      rw [List.drop_nil] at hpre
      cases pat with
      | nil => simp [findSub, List.isEmpty]
      | cons a b => simp [List.isPrefixOf] at hpre
    | succ jj =>
      exfalso
      rw [List.drop_nil] at hpre
      exact hmin 0 (by omega) (by rw [List.drop_nil]; exact hpre)
  | cons c rest ih =>
    cases j with
    | zero =>
      rw [List.drop_zero] at hpre
      simp [findSub, hpre]
    | succ jj =>
      have h0 : ¬ pat.isPrefixOf (c :: rest) := by
        have := hmin 0 (by omega)
        simpa using this
      have hrec : findSub pat rest = some jj := by
        refine ih (by simpa using hpre) ?_
        intro i hi
        have := hmin (i + 1) (by omega)
        simpa using this
      simp [findSub, h0, hrec]

theorem findSub_append_head_notin {pat pre rest : List Char} {c : Char}
    (hc : pat.head? = some c) (hpre : c ∉ pre) :
    findSub pat (pre ++ rest) = (findSub pat rest).map (· + pre.length) := by
  induction pre with
  | nil => simp
  | cons a pre' ih =>
    have hca : ¬ pat.isPrefixOf (a :: (pre' ++ rest)) := by
      intro hp
      cases pat with
      | nil => simp at hc
      | cons p0 ptl =>
        simp at hc
        subst hc
        simp [List.isPrefixOf] at hp
        exact hpre (by simp [hp.1])
    rw [List.cons_append]
    rw [show findSub pat (a :: (pre' ++ rest)) =
        (findSub pat (pre' ++ rest)).map (· + 1) from by simp [findSub, hca]]
    rw [ih (fun hm => hpre (by simp [hm]))]
    cases findSub pat rest with
    | none => rfl
    | some j => simp; omega

theorem isPrefixOf_append_self (pat rest : List Char) : pat.isPrefixOf (pat ++ rest) := by
  exact List.isPrefixOf_iff_prefix.mpr ⟨rest, rfl⟩

theorem isPrefixOf_of_append_left {pat Y Z : List Char} (hlen : pat.length ≤ Y.length)
    (h : pat.isPrefixOf (Y ++ Z)) : pat.isPrefixOf Y := by
  rw [List.isPrefixOf_iff_prefix] at h ⊢
  rw [List.prefix_iff_eq_take] at h ⊢
  rw [List.take_append_of_le_length hlen] at h
  exact h

/-- First occurrence of the comment terminator in a well-formed single comment:
it sits right after the body. -/
theorem findSub_close_comment {body tail2 : List Char}
    (hbody : findSub commentClose body = none)
    (hstart1 : body.head? ≠ some '>')
    (hstart2 : body.take 2 ≠ ['-', '>']) :
    findSub commentClose (commentOpen ++ body ++ commentClose ++ tail2) =
      some (4 + body.length) := by
  apply findSub_eq_some
  · have : (commentOpen ++ body ++ commentClose ++ tail2).drop (4 + body.length) =
        commentClose ++ tail2 := by
      rw [show commentOpen ++ body ++ commentClose ++ tail2 =
          (commentOpen ++ body) ++ (commentClose ++ tail2) from by simp]
      rw [show 4 + body.length = (commentOpen ++ body).length from by simp [commentOpen]; omega]
      exact List.drop_left _ _
    rw [this]
    exact isPrefixOf_append_self _ _
  · intro i hi hp
    have hbody' := findSub_none (by simp [commentClose]) hbody
    -- Case on the position of the alleged earlier occurrence.
    match i, hi with
    | 0, _ =>
      rw [List.drop_zero] at hp
      simp [commentOpen, commentClose, List.isPrefixOf] at hp
    | 1, _ =>
      rw [show commentOpen ++ body ++ commentClose ++ tail2 =
          '<' :: ('!' :: '-' :: '-' :: (body ++ commentClose ++ tail2)) from by
          simp [commentOpen]] at hp
      rw [List.drop_succ_cons, List.drop_zero] at hp
      simp [commentClose, List.isPrefixOf] at hp
    | 2, _ =>
      rw [show commentOpen ++ body ++ commentClose ++ tail2 =
          '<' :: '!' :: ('-' :: '-' :: (body ++ commentClose ++ tail2)) from by
          simp [commentOpen]] at hp
      rw [List.drop_succ_cons, List.drop_succ_cons, List.drop_zero] at hp
      -- `-->` at index 2 forces the body to start with `>`.
      cases hb : body with
      | nil =>
        subst hb
        simp [commentClose, List.isPrefixOf] at hp
      | cons b0 btl =>
        subst hb
        simp [commentClose, List.isPrefixOf] at hp
        exact hstart1 (by simp [hp.symm])
    | 3, _ =>
      rw [show commentOpen ++ body ++ commentClose ++ tail2 =
          '<' :: '!' :: '-' :: ('-' :: (body ++ commentClose ++ tail2)) from by
          simp [commentOpen]] at hp
      rw [List.drop_succ_cons, List.drop_succ_cons, List.drop_succ_cons, List.drop_zero] at hp
      -- `-->` at index 3 forces the body to start with `->`.
      cases hb : body with
      | nil =>
        subst hb
        simp [commentClose, List.isPrefixOf] at hp
      | cons b0 btl =>
        subst hb
        cases hb2 : btl with
        | nil =>
          subst hb2
          simp [commentClose, List.isPrefixOf] at hp
        | cons b1 btl2 =>
          subst hb2
          simp [commentClose, List.isPrefixOf] at hp
          exact hstart2 (by simp [hp.1.symm, hp.2.symm])
    | (n + 4), hi =>
      have hn : n < body.length := by omega
      have hdrop : (commentOpen ++ body ++ commentClose ++ tail2).drop (n + 4) =
          body.drop n ++ (commentClose ++ tail2) := by
        rw [show commentOpen ++ body ++ commentClose ++ tail2 =
            commentOpen ++ (body ++ (commentClose ++ tail2)) from by simp]
        rw [show n + 4 = commentOpen.length + n from by simp [commentOpen]; omega]
        rw [List.drop_append]
        rw [List.drop_append_of_le_length (by omega)]
      rw [hdrop] at hp
      -- Split on how much of the body remains.
      by_cases hY : 3 ≤ (body.drop n).length
      · refine hbody' n (isPrefixOf_of_append_left ?_ hp)
        have h3 : commentClose.length = 3 := rfl
        omega
      · -- One or two body characters remain; the window then overlaps the real
        -- terminator whose characters rule the match out.
        have h12 : (body.drop n).length = 1 ∨ (body.drop n).length = 2 := by
          rw [List.length_drop] at hY ⊢
          omega
        rcases h12 with hYl | hYl
        · obtain ⟨y0, hY0⟩ : ∃ y0, body.drop n = [y0] := by
            cases hyy : body.drop n with
            | nil => rw [hyy] at hYl; simp at hYl
            | cons a b =>
              cases hbb : b with
              | nil => exact ⟨a, rfl⟩
              | cons a2 b2 => rw [hyy, hbb] at hYl; simp at hYl
          rw [hY0] at hp
          simp [commentClose, List.isPrefixOf] at hp
        · obtain ⟨y0, y1, hY0⟩ : ∃ y0 y1, body.drop n = [y0, y1] := by
            cases hyy : body.drop n with
            | nil => rw [hyy] at hYl; simp at hYl
            | cons a b =>
              cases hbb : b with
              | nil => rw [hyy, hbb] at hYl; simp at hYl
              | cons a2 b2 =>
                cases hb2 : b2 with
                | nil => exact ⟨a, a2, rfl⟩
                | cons a3 b3 => rw [hyy, hbb, hb2] at hYl; simp at hYl
          rw [hY0] at hp
          simp [commentClose, List.isPrefixOf] at hp

theorem fslcGo_fuel : ∀ (f1 f2 : Nat) (result : List Char) (pos : Nat),
    result.length + 1 ≤ pos + f1 → result.length + 1 ≤ pos + f2 →
    fslcGo f1 result pos = fslcGo f2 result pos := by
  intro f1
  induction f1 with
  | zero =>
    intro f2 result pos h1 h2
    have hnone : findFrom commentOpen result pos = none :=
      findFrom_none_of_ge (by simp [commentOpen]) (by omega)
    cases f2 with
    | zero => rfl
    | succ g2 => simp [fslcGo, hnone]
  | succ g ih =>
    intro f2 result pos h1 h2
    cases f2 with
    | zero =>
      have hnone : findFrom commentOpen result pos = none :=
        findFrom_none_of_ge (by simp [commentOpen]) (by omega)
      simp [fslcGo, hnone]
    | succ g2 =>
      cases hfo : findFrom commentOpen result pos with
      | none => simp [fslcGo, hfo]
      | some p =>
        obtain ⟨hp1, _hp2, hp3⟩ := findFrom_some (by simp [commentOpen]) hfo
        have hlo : commentOpen.length = 4 := rfl
        cases hfc : findFrom commentClose result p with
        | none =>
          simp only [fslcGo, hfo, hfc]
          exact ih g2 result (p + 4) (by omega) (by omega)
        | some e =>
          obtain ⟨he1, _he2, he3⟩ := findFrom_some (by simp [commentClose]) hfc
          have hlc : commentClose.length = 3 := rfl
          simp only [fslcGo, hfo, hfc]
          by_cases hml : '\n' ∈ (result.drop p).take (e - p + 3) ∨
              '\r' ∈ (result.drop p).take (e - p + 3)
          · rw [if_pos hml, if_pos hml]
            exact ih g2 result (e + 3) (by omega) (by omega)
          · rw [if_neg hml, if_neg hml]
            have hreslen : (result.take p ++
                rewrapComment (if e < p + 4 then result.drop (p + 4)
                  else (result.drop (p + 4)).take (e - (p + 4))) ++
                result.drop (e + 3)).length =
                p + (rewrapComment (if e < p + 4 then result.drop (p + 4)
                  else (result.drop (p + 4)).take (e - (p + 4)))).length +
                (result.length - (e + 3)) := by
              simp [List.length_take, List.length_drop]
              omega
            exact ih g2 _ _ (by rw [hreslen]; omega) (by rw [hreslen]; omega)

theorem findSub_self (pat Y : List Char) (hp : pat ≠ []) :
    findSub pat (pat ++ Y) = some 0 := by
  cases pat with
  | nil => exact absurd rfl hp
  | cons a b =>
    have hpre : (a :: b).isPrefixOf ((a :: b) ++ Y) := isPrefixOf_append_self _ _
    rw [List.cons_append]
    rw [List.cons_append] at hpre
    simp [findSub, hpre]

/-- The first `<!--` of `pre ++ <!-- ++ Y` sits right after `pre` whenever
`pre` itself contains no `<!--`: an occurrence cannot straddle the boundary,
because no proper suffix of `<!--` glued to a prefix of `<!--` spells `<!--`
again. -/
theorem findSub_commentOpen_first {pre Y : List Char}
    (hpre : findSub commentOpen pre = none) :
    findSub commentOpen (pre ++ (commentOpen ++ Y)) = some pre.length := by
  apply findSub_eq_some
  · rw [List.drop_left]
    exact isPrefixOf_append_self _ _
  · intro i hi hp
    rw [List.drop_append_of_le_length (by omega)] at hp
    by_cases hlen : 4 ≤ pre.length - i
    · have hpp : commentOpen.isPrefixOf (pre.drop i) :=
        isPrefixOf_of_append_left (by simp [commentOpen]; omega) hp
      exact findSub_none (by simp [commentOpen]) hpre i hpp
    · have hDlen : (pre.drop i).length = pre.length - i := by simp
      rcases hD : pre.drop i with _ | ⟨a, _ | ⟨b, _ | ⟨c, tail⟩⟩⟩
      · rw [hD] at hDlen
        simp at hDlen
        omega
      · rw [hD] at hp
        simp [commentOpen, List.isPrefixOf] at hp
      · rw [hD] at hp
        simp [commentOpen, List.isPrefixOf] at hp
      · rw [hD] at hDlen hp
        by_cases htail : tail = []
        · subst htail
          simp [commentOpen, List.isPrefixOf] at hp
        · exfalso
          simp at hDlen
          have : 1 ≤ tail.length := List.length_pos.mpr htail
          omega

/-- Behaviour of `formatSingleLineComments` on the first comment of the
string: under the well-formedness conditions on the body, a single-line
comment is rewrapped around its trimmed, space-collapsed body, a multi-line
comment is kept verbatim, and scanning continues behind the comment. -/
theorem formatSingleLineComments_comment (pre body post : List Char)
    (hpre : findSub commentOpen pre = none)
    (hbody : findSub commentClose body = none)
    (hstart1 : body.head? ≠ some '>')
    (hstart2 : body.take 2 ≠ ['-', '>']) :
    formatSingleLineComments (pre ++ commentOpen ++ body ++ commentClose ++ post) =
      pre ++ (if '\n' ∈ body ∨ '\r' ∈ body then commentOpen ++ body ++ commentClose
        else rewrapComment body) ++ formatSingleLineComments post := by
  have hassoc : pre ++ commentOpen ++ body ++ commentClose ++ post =
      pre ++ (commentOpen ++ body ++ commentClose ++ post) := by simp
  set s := pre ++ commentOpen ++ body ++ commentClose ++ post with hs
  set X := commentOpen ++ body ++ commentClose ++ post with hX
  have hsX : s = pre ++ X := by rw [hs, hX]; simp
  have hslen : s.length = pre.length + (4 + body.length + 3 + post.length) := by
    rw [hsX, hX]
    simp [commentOpen, commentClose]
    omega
  -- The first `<!--` is found right after `pre`.
  have hfind1 : findFrom commentOpen s 0 = some pre.length := by
    have h2 : findSub commentOpen (pre ++ (commentOpen ++ (body ++ (commentClose ++ post)))) =
        some pre.length := findSub_commentOpen_first hpre
    have hsX2 : s = pre ++ (commentOpen ++ (body ++ (commentClose ++ post))) := by
      rw [hs]
      simp
    simp [findFrom, hsX2, h2]
  -- The terminating `-->` is the one right after the body.
  have hfind2 : findFrom commentClose s pre.length = some (4 + body.length + pre.length) := by
    have hdropX : s.drop pre.length = X := by rw [hsX]; exact List.drop_left _ _
    have h1 : findSub commentClose X = some (4 + body.length) := by
      rw [hX, show commentOpen ++ body ++ commentClose ++ post =
        commentOpen ++ body ++ commentClose ++ post from rfl]
      exact findSub_close_comment hbody hstart1 hstart2
    simp [findFrom, hdropX, h1]
  -- The block covered by the comment.
  have hblock : (s.drop pre.length).take (4 + body.length + pre.length - pre.length + 3) =
      commentOpen ++ body ++ commentClose := by
    have hdropX : s.drop pre.length = X := by rw [hsX]; exact List.drop_left _ _
    rw [hdropX, hX, show commentOpen ++ body ++ commentClose ++ post =
      (commentOpen ++ body ++ commentClose) ++ post from by simp]
    rw [show 4 + body.length + pre.length - pre.length + 3 =
      (commentOpen ++ body ++ commentClose).length from by simp [commentOpen, commentClose]; omega]
    exact List.take_left _ _
  have hmem : ('\n' ∈ commentOpen ++ body ++ commentClose ∨
      '\r' ∈ commentOpen ++ body ++ commentClose) ↔ ('\n' ∈ body ∨ '\r' ∈ body) := by
    simp [commentOpen, commentClose]
  -- Unfold one iteration of the loop.
  rw [formatSingleLineComments]
  simp only [fslcGo, hfind1, hfind2, hblock]
  by_cases hml : '\n' ∈ body ∨ '\r' ∈ body
  · rw [if_pos (hmem.mpr hml), if_pos hml]
    have hA : s = (pre ++ (commentOpen ++ body ++ commentClose)) ++ post := by
      rw [hsX, hX]; simp
    have hpos : 4 + body.length + pre.length + 3 =
        (pre ++ (commentOpen ++ body ++ commentClose)).length + 0 := by
      simp [commentOpen, commentClose]
      omega
    rw [hA, hpos, fslcGo_shift]
    have hfm : fslcGo (pre ++ (commentOpen ++ body ++ commentClose) ++ post).length post 0 =
        formatSingleLineComments post := by
      rw [formatSingleLineComments]
      refine fslcGo_fuel _ _ post 0 ?_ (by omega)
      simp [commentOpen, commentClose]
      omega
    rw [hfm]
  · rw [if_neg (fun hcc => hml (hmem.mp hcc)), if_neg hml]
    have hnotlt : ¬ (4 + body.length + pre.length < pre.length + 4) := by omega
    rw [if_neg hnotlt]
    have hcontent : (s.drop (pre.length + 4)).take
        (4 + body.length + pre.length - (pre.length + 4)) = body := by
      have h1 : s.drop (pre.length + 4) = body ++ commentClose ++ post := by
        rw [show s = (pre ++ commentOpen) ++ (body ++ commentClose ++ post) from by
          rw [hsX, hX]; simp]
        rw [show pre.length + 4 = (pre ++ commentOpen).length from by simp [commentOpen]]
        rw [List.drop_left]
      rw [h1, show body ++ commentClose ++ post = body ++ (commentClose ++ post) from by simp]
      rw [show 4 + body.length + pre.length - (pre.length + 4) = body.length from by omega]
      exact List.take_left _ _
    have htakep : s.take pre.length = pre := by
      rw [hsX]; exact List.take_left _ _
    have hdrope : s.drop (4 + body.length + pre.length + 3) = post := by
      rw [show s = (pre ++ commentOpen ++ body ++ commentClose) ++ post from by rw [hs]]
      rw [show 4 + body.length + pre.length + 3 =
        (pre ++ commentOpen ++ body ++ commentClose).length from by
        simp [commentOpen, commentClose]; omega]
      exact List.drop_left _ _
    rw [hcontent, htakep, hdrope]
    have hA2 : pre ++ rewrapComment body ++ post =
        (pre ++ rewrapComment body) ++ post := by simp
    have hpos2 : pre.length + (rewrapComment body).length =
        (pre ++ rewrapComment body).length + 0 := by simp
    rw [hA2, hpos2, fslcGo_shift]
    have hfm : fslcGo s.length post 0 = formatSingleLineComments post := by
      rw [formatSingleLineComments]
      refine fslcGo_fuel _ _ post 0 ?_ (by omega)
      rw [hslen]
      omega
    rw [hfm]

/-- Token kinds of the QuickXml tokenizer (src/include/XmlParser.h lines 16-39). -/
inductive XmlTokenKind where
  | tagOpening
  | tagClosing
  | tagOpeningEnd
  | tagClosingEnd
  | tagSelfClosingEnd
  | attrName
  | attrValue
  | equal
  | text
  | whitespace
  | lineBreak
  | instruction
  | declarationBeg
  | declarationEnd
  | declarationSelfClosing
  | comment
  | cdata
  | endOfFile
  | undefined
  deriving DecidableEq, Repr

/-- Parsing context of the tokenizer (src/include/XmlParser.h lines 9-14). -/
structure XmlContext where
  inOpeningTag : Bool
  inClosingTag : Bool
  declarationObjects : Nat
  deriving DecidableEq, Repr

/-- A token: kind, absolute byte offset, byte length and a context snapshot
(src/include/XmlParser.h lines 43-50).  The character payload is the slice
`[pos, pos+size)` of the source buffer. -/
structure XmlToken where
  kind : XmlTokenKind
  pos : Nat
  size : Nat
  context : XmlContext
  deriving DecidableEq, Repr

/-- Tokenizer state: cursor plus mutable context
(src/include/XmlParser.h lines 62-66). -/
structure TkState where
  pos : Nat
  context : XmlContext
  expectAttrValue : Bool
  deriving DecidableEq, Repr

/-- Length of the longest run of characters satisfying `p` at the head. -/
def runLength (p : Char → Bool) : List Char → Nat
  | [] => 0
  | c :: rest => if p c then runLength p rest + 1 else 0

/-- Length of a token that extends to just past the first occurrence of `pat`,
or to the end of the buffer when `pat` does not occur (spec §4.1, error
semantics: unterminated constructs span to end-of-buffer). -/
def sizeThrough (pat : List Char) (l : List Char) : Nat :=
  match findSub pat l with
  | some i => i + pat.length
  | none => l.length

/-- An XML name character for the purposes of the tokenizer: anything that
does not terminate a name (spec §4.1, rule 8 and the primitive `readNextWord`). -/
def isNameChar (c : Char) : Bool :=
  ¬ (c = ' ' ∨ c = '\t' ∨ c = '\r' ∨ c = '\n' ∨ c = '<' ∨ c = '>' ∨ c = '/' ∨ c = '=' ∨
     c = '"' ∨ c = '\'' ∨ c = '?' ∨ c = '!' ∨ c = '[' ∨ c = ']')

/-- Space or tab (spec §4.1, rule 12). -/
def isBlank (c : Char) : Bool := c = ' ' ∨ c = '\t'

/-- CR or LF (spec §4.1, rule 11). -/
def isEolChar (c : Char) : Bool := c = '\r' ∨ c = '\n'

/-- Classification result: kind, raw size, updated context, updated
attribute-value expectation. -/
structure TkClass where
  kind : XmlTokenKind
  raw : Nat
  ctx : XmlContext
  expect : Bool

/-- Modelled from the spec: the recognition rules of `XmlParser::fetchToken`
(spec §4.1, rules 2-13), whose implementation (XmlParser.cpp) is not part of
the repository snapshot; only its header is.  `c :: rest` is the unread part
of the buffer.  Inside an opening tag the attribute rules apply (rule 2 with
`>`, `/>`, whitespace and line breaks of rules 9-12); inside a closing tag
only `>` and spacing; otherwise the `<`-introduced constructs of rules 3-8,
declaration terminators, spacing runs and text up to the next `<`. -/
def classify (ctx : XmlContext) (expect : Bool) (c : Char) (rest : List Char) : TkClass :=
  let rem := c :: rest
  if ctx.inOpeningTag then
    if c = '>' then
      ⟨.tagOpeningEnd, 1, { ctx with inOpeningTag := false }, false⟩
    else if c = '/' ∧ rest.head? = some '>' then
      ⟨.tagSelfClosingEnd, 2, { ctx with inOpeningTag := false }, false⟩
    else if isEolChar c then
      ⟨.lineBreak, runLength isEolChar rem, ctx, expect⟩
    else if isBlank c then
      ⟨.whitespace, runLength isBlank rem, ctx, expect⟩
    else if c = '=' then
      ⟨.equal, 1, ctx, true⟩
    else if c = '"' ∨ c = '\'' then
      -- A quoted attribute value, quotes included; unterminated → to the end.
      ⟨.attrValue, (match findChar c rest with | some i => i + 2 | none => rem.length), ctx, false⟩
    else if expect then
      ⟨.attrValue, runLength isNameChar rem, ctx, false⟩
    else
      ⟨.attrName, runLength isNameChar rem, ctx, false⟩
  else if ctx.inClosingTag then
    if c = '>' then
      ⟨.tagClosingEnd, 1, { ctx with inClosingTag := false }, false⟩
    else if isEolChar c then
      ⟨.lineBreak, runLength isEolChar rem, ctx, expect⟩
    else if isBlank c then
      ⟨.whitespace, runLength isBlank rem, ctx, expect⟩
    else
      ⟨.text, runLength isNameChar rem, ctx, expect⟩
  else if c = '<' then
    if rest.head? = some '?' then
      ⟨.instruction, sizeThrough ['?', '>'] rem, ctx, expect⟩
    else if commentOpen.isPrefixOf rem then
      ⟨.comment, sizeThrough commentClose rem, ctx, expect⟩
    else if ['<', '!', '[', 'C', 'D', 'A', 'T', 'A', '['].isPrefixOf rem then
      ⟨.cdata, sizeThrough [']', ']', '>'] rem, ctx, expect⟩
    else if rest.head? = some '!' then
      -- A declaration: scan for the first `[` or `>` (spec §4.1 rule 6).
      let n := runLength (fun d => ¬ (d = '[' ∨ d = '>')) rem
      match rem[n]? with
      | some '[' => ⟨.declarationBeg, n + 1,
          { ctx with declarationObjects := ctx.declarationObjects + 1 }, expect⟩
      | some _ => ⟨.declarationSelfClosing, n + 1, ctx, expect⟩
      | none => ⟨.declarationSelfClosing, rem.length, ctx, expect⟩
    else if rest.head? = some '/' then
      ⟨.tagClosing, 2 + runLength isNameChar (rest.drop 1),
        { ctx with inClosingTag := true }, expect⟩
    else if (rest.head?.map isNameChar).getD false then
      ⟨.tagOpening, 1 + runLength isNameChar rest, { ctx with inOpeningTag := true }, expect⟩
    else
      ⟨.text, 1, ctx, expect⟩
  else if c = ']' ∧ 0 < ctx.declarationObjects ∧ rest.head? = some '>' then
    ⟨.declarationEnd, 2, { ctx with declarationObjects := ctx.declarationObjects - 1 }, expect⟩
  else if isEolChar c then
    ⟨.lineBreak, runLength isEolChar rem, ctx, expect⟩
  else if isBlank c then
    ⟨.whitespace, runLength isBlank rem, ctx, expect⟩
  else
    ⟨.text, runLength (fun d => ¬ (d = '<' ∨ d = '\r' ∨ d = '\n')) rem, ctx, expect⟩

/-- Modelled from the spec: one `parseNext` step of the tokenizer (spec §4.1).
On exhaustion it returns `EndOfFile` with the cursor unchanged; otherwise the
classified token, clamped so that the token always covers at least one and at
most all remaining bytes (spec invariant: every byte is accounted for and
tokens never leave the buffer). -/
def nextTok (src : List Char) (st : TkState) : XmlToken × TkState :=
  match src.drop st.pos with
  | [] => (⟨.endOfFile, st.pos, 0, st.context⟩, st)
  | c :: rest =>
    let cl := classify st.context st.expectAttrValue c rest
    let size := min (max 1 cl.raw) (c :: rest).length
    (⟨cl.kind, st.pos, size, st.context⟩, ⟨st.pos + size, cl.ctx, cl.expect⟩)

/-- Modelled from the spec: repeated `parseNext` pulls until `EndOfFile`
(spec §4.1), collecting every emitted token. -/
def tokenizeGo (src : List Char) : Nat → TkState → List XmlToken
  | 0, _ => []
  | fuel + 1, st =>
    if st.pos < src.length then
      (nextTok src st).1 :: tokenizeGo src fuel (nextTok src st).2
    else []

/-- The initial tokenizer state. -/
def initTkState : TkState := ⟨0, ⟨false, false, 0⟩, false⟩

/-- Modelled from the spec: the full token stream of a buffer. -/
def tokenize (src : List Char) : List XmlToken :=
  tokenizeGo src (src.length + 1) initTkState

/-- Decides that a token list exactly tiles the byte range `[start, n)`:
each token starts where the previous one ended, has positive size, and the
last one ends at `n`. -/
def tokensTile (n : Nat) : Nat → List XmlToken → Bool
  | start, [] => start == n
  | start, t :: ts => t.pos == start && decide (1 ≤ t.size) && tokensTile n (t.pos + t.size) ts

/-- The bytes covered by a token. -/
def tokenSlice (src : List Char) (t : XmlToken) : List Char :=
  (src.drop t.pos).take t.size

/-- Concatenation of the bytes of a token list. -/
def tokensBytes (src : List Char) : List XmlToken → List Char
  | [] => []
  | t :: ts => tokenSlice src t ++ tokensBytes src ts

theorem nextTok_progress (src : List Char) (st : TkState) (h : st.pos < src.length) :
    (nextTok src st).1.pos = st.pos ∧ 1 ≤ (nextTok src st).1.size ∧
    st.pos + (nextTok src st).1.size ≤ src.length ∧
    (nextTok src st).2.pos = st.pos + (nextTok src st).1.size := by
  have hlen : (src.drop st.pos).length = src.length - st.pos := by simp
  cases hrem : src.drop st.pos with
  | nil =>
    exfalso
    have := congrArg List.length hrem
    rw [hlen] at this
    simp at this
    omega
  | cons c rest =>
    have hclen : (c :: rest).length = src.length - st.pos := by rw [← hrem, hlen]
    have hlen2 : (c :: rest).length = rest.length + 1 := rfl
    refine ⟨?_, ?_, ?_, ?_⟩ <;> simp only [nextTok, hrem] <;> omega

theorem tokenizeGo_tiles (src : List Char) : ∀ (fuel : Nat) (st : TkState),
    st.pos ≤ src.length → src.length ≤ st.pos + fuel →
    tokensTile src.length st.pos (tokenizeGo src fuel st) = true := by
  intro fuel
  induction fuel with
  | zero =>
    intro st h1 h2
    have : st.pos = src.length := by omega
    simp [tokenizeGo, tokensTile, this]
  | succ fuel ih =>
    intro st h1 h2
    by_cases hlt : st.pos < src.length
    · obtain ⟨hp, hs, hb, hn⟩ := nextTok_progress src st hlt
      have h3 := ih (nextTok src st).2 (by omega) (by omega)
      rw [hn] at h3
      simp only [tokenizeGo, if_pos hlt, tokensTile, hp]
      simp [hs, h3]
    · have : st.pos = src.length := by omega
      simp [tokenizeGo, hlt, tokensTile, this]

theorem tokensTile_cons {src_n start : Nat} {t : XmlToken} {rest : List XmlToken}
    (h : tokensTile src_n start (t :: rest) = true) :
    t.pos = start ∧ 1 ≤ t.size ∧ tokensTile src_n (t.pos + t.size) rest = true := by
  rw [tokensTile] at h
  simp only [Bool.and_eq_true, beq_iff_eq, decide_eq_true_eq] at h
  exact ⟨h.1.1, h.1.2, h.2⟩

theorem tokensTile_le {src_n : Nat} : ∀ {ts : List XmlToken} {start : Nat},
    tokensTile src_n start ts = true → start ≤ src_n := by
  intro ts
  induction ts with
  | nil =>
    intro start h
    rw [tokensTile] at h
    simp at h
    omega
  | cons t rest ih =>
    intro start h
    obtain ⟨hpos, hsize, htile⟩ := tokensTile_cons h
    have := ih htile
    omega

theorem tokensTile_bytes (src : List Char) : ∀ (ts : List XmlToken) (start : Nat),
    tokensTile src.length start ts = true → tokensBytes src ts = src.drop start := by
  intro ts
  induction ts with
  | nil =>
    intro start h
    rw [tokensTile] at h
    simp at h
    rw [tokensBytes, h, List.drop_length]
  | cons t rest ih =>
    intro start h
    obtain ⟨hpos, hsize, htile⟩ := tokensTile_cons h
    rw [tokensBytes, ih _ htile, tokenSlice, hpos]
    have : src.drop (start + t.size) = (src.drop start).drop t.size := by
      rw [List.drop_drop]
    rw [this, List.take_append_drop]

theorem tokensTile_chain {src_n : Nat} : ∀ {ts : List XmlToken} {start : Nat},
    tokensTile src_n start ts = true →
    List.Chain' (fun a b => a.pos + a.size ≤ b.pos) ts := by
  intro ts
  induction ts with
  | nil => intro start _; exact List.chain'_nil
  | cons t rest ih =>
    intro start h
    obtain ⟨hpos, hsize, htile⟩ := tokensTile_cons h
    cases rest with
    | nil => simp
    | cons u rest2 =>
      rw [List.chain'_cons]
      refine ⟨?_, ih htile⟩
      obtain ⟨hpos2, _, _⟩ := tokensTile_cons htile
      omega

theorem tokensTile_within {src_n : Nat} : ∀ {ts : List XmlToken} {start : Nat},
    tokensTile src_n start ts = true →
    ∀ t ∈ ts, t.pos + t.size ≤ src_n := by
  intro ts
  induction ts with
  | nil => intro start _ t ht; simp at ht
  | cons u rest ih =>
    intro start h t ht
    obtain ⟨hpos, hsize, htile⟩ := tokensTile_cons h
    rcases List.mem_cons.mp ht with heq | hmem
    · subst heq
      exact tokensTile_le htile
    · exact ih htile t hmem

/-- Formatter parameters (src/include/XmlFormatter.h lines 16-29). -/
structure XmlFormatterParams where
  indentChars : List Char
  eolChars : List Char
  maxIndentLevel : Nat
  ensureConformity : Bool
  autoCloseTags : Bool
  indentAttributes : Bool
  indentOnly : Bool
  applySpacePreserve : Bool
  deriving DecidableEq, Repr

/-- Formatter state: indent counters (src/include/XmlFormatter.h lines 53-54),
the `xml:space` bookkeeping of spec §3, the indent-only line machine of spec
§4.2 and the output accumulated so far. -/
structure FmtState where
  indentLevel : Nat
  levelCounter : Nat
  atLineStart : Bool
  lastWasText : Bool
  pendingPreserve : Bool
  lastAttrXmlSpace : Bool
  preserveStack : List Bool
  openNames : List (List Char)
  out : List Char
  deriving Repr

/-- Indentation for a level, capped by `maxIndentLevel` (0 means unlimited),
as in spec §4.2. -/
def indentOf (P : XmlFormatterParams) (lvl : Nat) : List Char :=
  (List.replicate (if P.maxIndentLevel = 0 then lvl else min lvl P.maxIndentLevel)
    P.indentChars).flatten

/-- An attribute value without its surrounding quotes (spec §4.1:
`AttrValue` carries the quotes verbatim). -/
def stripQuotes (l : List Char) : List Char :=
  if 2 ≤ l.length then (l.drop 1).take (l.length - 2) else l

/-- Kinds treated as block-level by the pretty printer (spec §4.2). -/
def isBlockKind : XmlTokenKind → Bool
  | .tagOpening | .comment | .cdata | .instruction
  | .declarationBeg | .declarationEnd | .declarationSelfClosing => true
  | _ => false

/-- Modelled from the spec: one per-token step of `XmlFormatter::prettyPrint`
(spec §4.2), whose implementation (XmlFormatter.cpp) is not part of the
repository snapshot; only its header is.  In `indentOnly` mode the three-state
line machine applies: line breaks pass through, whitespace at a line start is
swallowed and replaced by the computed indentation emitted in front of the
first non-blank token of the line (one level less for a closing tag), and
everything else passes through verbatim.  In pretty mode the formatter swallows
source spacing and emits its own breaks before block-level tokens and closing
tags (suppressed after text, to keep mixed content on one line).  An
`xml:space="preserve"` attribute makes the element completion push `true` on
the preserve stack, during which all bytes pass through verbatim. -/
def fmtStep (P : XmlFormatterParams) (src : List Char) (st : FmtState) (t : XmlToken) :
    FmtState :=
  let slice := tokenSlice src t
  let pres := P.applySpacePreserve && st.preserveStack.headD false
  match t.kind with
  | .lineBreak =>
    if pres then { st with out := st.out ++ slice, atLineStart := true }
    else if P.indentOnly then { st with out := st.out ++ slice, atLineStart := true }
    else st
  | .whitespace =>
    if pres then { st with out := st.out ++ slice }
    else if P.indentOnly then
      if st.atLineStart then st else { st with out := st.out ++ slice }
    else st
  | _ =>
    let lvl := if t.kind = .tagClosing then st.indentLevel - 1 else st.indentLevel
    let lead :=
      if pres then []
      else if P.indentOnly then
        if st.atLineStart then indentOf P lvl else []
      else
        if (isBlockKind t.kind || (t.kind == .tagClosing && !st.lastWasText)) && st.out ≠ [] then
          P.eolChars ++ indentOf P lvl
        else []
    let base :=
      { st with
          out := st.out ++ lead ++ slice,
          atLineStart := false,
          lastWasText := t.kind == .text }
    match t.kind with
    | .tagOpening =>
      { base with
          indentLevel := st.indentLevel + 1,
          levelCounter := st.levelCounter + 1,
          openNames := slice.drop 1 :: st.openNames,
          pendingPreserve := false,
          lastAttrXmlSpace := false }
    | .tagClosing =>
      { base with
          indentLevel := st.indentLevel - 1,
          levelCounter := st.levelCounter - 1,
          openNames := st.openNames.tail }
    | .tagOpeningEnd =>
      { base with
          preserveStack :=
            (st.pendingPreserve || st.preserveStack.headD false) :: st.preserveStack,
          pendingPreserve := false }
    | .tagClosingEnd =>
      { base with preserveStack := st.preserveStack.tail }
    | .tagSelfClosingEnd =>
      { base with
          indentLevel := st.indentLevel - 1,
          levelCounter := st.levelCounter - 1,
          pendingPreserve := false }
    | .attrName =>
      { base with
          lastAttrXmlSpace :=
            slice = ('x' :: 'm' :: 'l' :: ':' :: 's' :: 'p' :: 'a' :: 'c' :: 'e' :: []) }
    | .attrValue =>
      { base with
          pendingPreserve :=
            st.pendingPreserve ||
              (st.lastAttrXmlSpace &&
                stripQuotes slice = ('p' :: 'r' :: 'e' :: 's' :: 'e' :: 'r' :: 'v' :: 'e' :: [])),
          lastAttrXmlSpace := false }
    | _ => base

/-- Modelled from the spec: the `autoCloseTags` lookahead of spec §4.2 —
an opening-tag end is rewritten to `/>` when the immediately following two
tokens close the element just opened with an exactly empty body. -/
def autoCloseMatch (src : List Char) (st : FmtState) : List XmlToken → Bool
  | tc :: te :: _ =>
    tc.kind == .tagClosing && te.kind == .tagClosingEnd &&
      (tokenSlice src tc).drop 2 == st.openNames.headD []
  | _ => false

/-- Modelled from the spec: the token-consuming loop of
`XmlFormatter::prettyPrint` (spec §4.2); see `autoCloseMatch` above for the
`autoCloseTags` lookahead that rewrites `<a></a>` with an exactly empty body
into `<a/>`. -/
def fmtGo (P : XmlFormatterParams) (src : List Char) : List XmlToken → FmtState → List Char
  | [], st => st.out
  | t :: rest, st =>
    if t.kind == .tagOpeningEnd && P.autoCloseTags && autoCloseMatch src st rest then
      match rest with
      | _tc :: _te :: ts' =>
        fmtGo P src ts'
          { st with
              out := st.out ++ ['/', '>'],
              indentLevel := st.indentLevel - 1,
              levelCounter := st.levelCounter - 1,
              openNames := st.openNames.tail,
              pendingPreserve := false,
              atLineStart := false,
              lastWasText := false }
      | _ => st.out
    else
      fmtGo P src rest (fmtStep P src st t)

/-- The initial formatter state. -/
def initFmtState : FmtState :=
  ⟨0, 0, true, false, false, false, [], [], []⟩

/-- Modelled from the spec: `XmlFormatter::prettyPrint` (spec §4.2). -/
def prettyPrint (P : XmlFormatterParams) (src : List Char) : List Char :=
  fmtGo P src (tokenize src) initFmtState

/-- The formatter parameters built by `indentXML`
(src/src/XmlIndenter.cpp lines 89-98). -/
def indenterParams (indentStr eolStr : List Char) (indentOnly autoClose : Bool) :
    XmlFormatterParams :=
  ⟨indentStr, eolStr, 255, true, autoClose, false, indentOnly, true⟩

/-- The post-processing of `indentXML` that is common to both versions
(src/src/XmlIndenter.cpp lines 112-142): the three `replaceAll` patterns, the
`</>` fallback and the self-closing-tag spacing loop. -/
def cppPostProcess (s : List Char) : List Char :=
  let s1 := replaceAll s ('>' :: '\t' :: '<' :: '!' :: '-' :: '-' :: [])
    ('>' :: ' ' :: '<' :: '!' :: '-' :: '-' :: [])
  let s2 := replaceAll s1 ('>' :: '<' :: '!' :: '-' :: '-' :: [])
    ('>' :: ' ' :: '<' :: '!' :: '-' :: '-' :: [])
  let s3 := replaceAll s2 ('"' :: '/' :: '>' :: []) ('"' :: ' ' :: '/' :: '>' :: [])
  let s4 := replaceAll s3 ('<' :: '/' :: '>' :: []) ('<' :: ' ' :: '/' :: '>' :: [])
  slashGtPass s4

/-- Model of `XmlIndenter::indentXML` as in src/src/XmlIndenter.cpp lines
73-148 (the version without comment reformatting), with the absent
`prettyPrint` implementation modelled from the spec. -/
def indentXmlCpp (indentStr eolStr : List Char) (indentOnly autoClose : Bool)
    (xmlContent : List Char) : List Char :=
  let processed := dropToFirstLt xmlContent
  let processed := normalizeLineEndings processed
  let formatted := prettyPrint (indenterParams indentStr eolStr indentOnly autoClose) processed
  normalizeLineEndings (cppPostProcess formatted)

/-- Model of `XmlIndenter::indentXML` as in src/unnamed/part_000 lines 172-250
(the version that additionally runs `formatSingleLineComments` before the final
line-ending normalization), with the absent `prettyPrint` implementation
modelled from the spec. -/
def indentXml000 (indentStr eolStr : List Char) (indentOnly autoClose : Bool)
    (xmlContent : List Char) : List Char :=
  let processed := dropToFirstLt xmlContent
  let processed := normalizeLineEndings processed
  let formatted := prettyPrint (indenterParams indentStr eolStr indentOnly autoClose) processed
  normalizeLineEndings (formatSingleLineComments (cppPostProcess formatted))

/-- One entry of the recursive directory walk
(`std::filesystem::recursive_directory_iterator` over the current directory):
its full path, whether it is a regular file, and its byte content. -/
structure FsEntry where
  path : List Char
  isRegularFile : Bool
  content : List Char
  deriving DecidableEq, Repr

/-- The filename component of a path: everything after the last `/`. -/
def pathFileName (p : List Char) : List Char :=
  (p.reverse.takeWhile (fun c => c ≠ '/')).reverse

/-- Index of the last occurrence of a character. -/
def lastIdxOf (c : Char) : List Char → Option Nat
  | [] => none
  | d :: rest =>
    match lastIdxOf c rest with
    | some i => some (i + 1)
    | none => if d = c then some 0 else none

/-- `std::filesystem::path::extension` on a filename: the suffix starting at
the last dot, except that `.`, `..` and a leading dot (hidden files such as
`.profile`) yield no extension. -/
def pathExtension (fn : List Char) : List Char :=
  if fn = ['.'] ∨ fn = ['.', '.'] then []
  else
    match lastIdxOf '.' fn with
    | none => []
    | some 0 => []
    | some i => fn.drop i

/-- The selection test of `findXmlAndXsdFiles` (src/unnamed/part_002 lines
27-34): a regular file whose extension is `.xml` or `.xsd`. -/
def wantsXmlOrXsd (e : FsEntry) : Bool :=
  e.isRegularFile &&
    (pathExtension (pathFileName e.path) == ('.' :: 'x' :: 'm' :: 'l' :: []) ||
     pathExtension (pathFileName e.path) == ('.' :: 'x' :: 's' :: 'd' :: []))

/-- Model of `findXmlAndXsdFiles` (src/unnamed/part_002 lines 11-44): walk the
directory entries in iteration order and keep the regular `.xml`/`.xsd`
files. -/
def findXmlAndXsdFiles : List FsEntry → List FsEntry
  | [] => []
  | e :: rest =>
    if wantsXmlOrXsd e then e :: findXmlAndXsdFiles rest
    else findXmlAndXsdFiles rest

/-- `readFile` (src/unnamed/part_002 lines 65-77): the content stored at a
path. -/
def readFs (fs : List FsEntry) (p : List Char) : List Char :=
  match fs.find? (fun e => e.path == p) with
  | some e => e.content
  | none => []

/-- `writeFile` (src/unnamed/part_002 lines 79-89): overwrite the content
stored at a path. -/
def writeFs (fs : List FsEntry) (p : List Char) (c : List Char) : List FsEntry :=
  fs.map (fun e => if e.path == p then { e with content := c } else e)

/-- `processXmlFile` (src/unnamed/part_002 lines 92-116) at the default
settings: read the file, run `indentXML`, write the result back to the same
path.  The part_000 `indentXML` is used — the indenter variant that ships in
the same concatenated source dump as this `main`. -/
def processXmlFile (fs : List FsEntry) (p : List Char) : List FsEntry :=
  writeFs fs p (indentXml000 ['\t'] ['\n'] true true (readFs fs p))

/-- Model of the zero-argument branch of `main` (src/unnamed/part_002 lines
128-157): collect the `.xml`/`.xsd` regular files, then process each in order
with the default settings (tab indent, LF eol, indent-only, auto-close). -/
def mainZeroArgs (fs : List FsEntry) : List FsEntry :=
  (findXmlAndXsdFiles fs).foldl (fun σ e => processXmlFile σ e.path) fs

theorem findXmlAndXsdFiles_eq_filter (fs : List FsEntry) :
    findXmlAndXsdFiles fs = fs.filter wantsXmlOrXsd := by
  induction fs with
  | nil => rfl
  | cons e rest ih =>
    by_cases h : wantsXmlOrXsd e
    · simp [findXmlAndXsdFiles, List.filter, h, ih]
    · simp only [Bool.not_eq_true] at h
      simp [findXmlAndXsdFiles, List.filter, h, ih]

theorem writeFs_paths (fs : List FsEntry) (p : List Char) (c : List Char) :
    (writeFs fs p c).map FsEntry.path = fs.map FsEntry.path := by
  induction fs with
  | nil => rfl
  | cons e rest ih =>
    by_cases h : e.path == p
    · simp only [writeFs, List.map_cons] at ih ⊢
      rw [if_pos h]
      simp only [List.cons.injEq]
      exact ⟨trivial, ih⟩
    · simp only [writeFs, List.map_cons] at ih ⊢
      rw [if_neg (by simpa using h)]
      simp only [List.cons.injEq]
      exact ⟨trivial, ih⟩

theorem readFs_mem_nodup {fs : List FsEntry} (hnd : (fs.map FsEntry.path).Nodup)
    {e : FsEntry} (he : e ∈ fs) : readFs fs e.path = e.content := by
  induction fs with
  | nil => simp at he
  | cons a rest ih =>
    simp only [List.map_cons, List.nodup_cons] at hnd
    rcases List.mem_cons.mp he with he1 | he2
    · subst he1
      simp [readFs, List.find?]
    · by_cases hp : a.path == e.path
      · exfalso
        apply hnd.1
        rw [beq_iff_eq] at hp
        rw [hp]
        exact List.mem_map_of_mem FsEntry.path he2
      · have := ih hnd.2 he2
        simp only [Bool.not_eq_true] at hp
        simpa [readFs, List.find?, hp] using this

theorem foldProcess_eq (todo : List FsEntry) : ∀ (σ : List FsEntry),
    (σ.map FsEntry.path).Nodup → (todo.map FsEntry.path).Nodup →
    todo.foldl (fun σ' e => processXmlFile σ' e.path) σ =
      σ.map (fun e =>
        if e.path ∈ todo.map FsEntry.path
        then { e with content := indentXml000 ['\t'] ['\n'] true true e.content }
        else e) := by
  induction todo with
  | nil =>
    intro σ _ _
    simp
  | cons t rest ih =>
    intro σ hσ htodo
    simp only [List.map_cons, List.nodup_cons] at htodo
    obtain ⟨htr, hrest⟩ := htodo
    rw [List.foldl_cons]
    have hσ' : ((processXmlFile σ t.path).map FsEntry.path).Nodup := by
      rw [processXmlFile, writeFs_paths]
      exact hσ
    rw [ih (processXmlFile σ t.path) hσ' hrest]
    rw [processXmlFile, writeFs, List.map_map]
    apply List.map_congr_left
    intro a ha
    simp only [Function.comp_apply]
    by_cases hap : a.path = t.path
    · have hread : readFs σ t.path = a.content := by
        rw [← hap]
        exact readFs_mem_nodup hσ ha
      simp [hap, htr, hread, List.map_cons, List.mem_cons]
    · by_cases hmem : a.path ∈ rest.map FsEntry.path
      · simp [beq_iff_eq, hap, hmem, List.map_cons, List.mem_cons]
      · simp [beq_iff_eq, hap, hmem, List.map_cons, List.mem_cons]

theorem formatSingleLineComments_no_comment {s : List Char}
    (h : findSub commentOpen s = none) : formatSingleLineComments s = s := by
  have hf : findFrom commentOpen s 0 = none := by
    simp [findFrom, h]
  simp only [formatSingleLineComments, fslcGo, hf]

/-- A directory tree used to exercise the zero-argument entry point: two
selected files (`.xml` and `.xsd`), a directory, a `.txt` file and a hidden
file named `.xml`. -/
def sampleFs : List FsEntry :=
  [⟨('.' :: '/' :: 'a' :: '.' :: 'x' :: 'm' :: 'l' :: []), true, ('<' :: 'a' :: '/' :: '>' :: [])⟩,
   ⟨('.' :: '/' :: 's' :: 'u' :: 'b' :: []), false, []⟩,
   ⟨('.' :: '/' :: 's' :: 'u' :: 'b' :: '/' :: 'b' :: '.' :: 'x' :: 's' :: 'd' :: []), true,
     ('<' :: 'b' :: '>' :: '<' :: '/' :: 'b' :: '>' :: [])⟩,
   ⟨('.' :: '/' :: 'n' :: '.' :: 't' :: 'x' :: 't' :: []), true, ('<' :: 'x' :: '/' :: '>' :: [])⟩,
   ⟨('.' :: '/' :: '.' :: 'x' :: 'm' :: 'l' :: []), true, ('<' :: 'y' :: '/' :: '>' :: [])⟩]

/-- C1: `normalizeLineEndings` — the final post-processing step of `indentXML`
— rewrites every lone CR and every LF not preceded by CR to CRLF and keeps
existing CRLF pairs (`crlfSpec` is that sentence as a one-pass scanner), and
therefore every line ending of its output, and of the `indentXML` output it
finalizes, is a CRLF pair (`crlfOnly`). -/
theorem c1_normalize_to_crlf (content : List Char) :
    normalizeLineEndings content = crlfSpec content ∧
    crlfOnly (normalizeLineEndings content) = true ∧
    (∀ ind eol io ac, crlfOnly (indentXmlCpp ind eol io ac content) = true) := by
  refine ⟨normalizeLineEndings_eq_spec content, ?_, ?_⟩
  · rw [normalizeLineEndings_eq_spec]
    exact crlfOnly_crlfSpec content
  · intro ind eol io ac
    show crlfOnly (normalizeLineEndings (cppPostProcess
      (prettyPrint (indenterParams ind eol io ac)
        (normalizeLineEndings (dropToFirstLt content))))) = true
    rw [normalizeLineEndings_eq_spec]
    exact crlfOnly_crlfSpec _

/-- C2: after the post-processing of `indentXML` (the `replaceAll` patterns
followed by the self-closing-tag loop and the final normalization), every
`/>` occurrence is preceded by a space or a double quote unless it stands at
the start (`noBadSlashGt none`) — both for an arbitrary formatter output `s`
and for the full pipeline.  The claim's further sentence, that every `/>` ends
up preceded by *exactly one* space, is refuted by
`c2_two_spaces_counterexample`: an occurrence already preceded by a space is
skipped, so pre-existing runs of spaces survive. -/
theorem c2_slash_gt_space_or_quote (s : List Char) :
    noBadSlashGt none (normalizeLineEndings (cppPostProcess s)) = true ∧
    (∀ ind eol io ac x, noBadSlashGt none (indentXmlCpp ind eol io ac x) = true) := by
  have key : ∀ u : List Char,
      noBadSlashGt none (normalizeLineEndings (cppPostProcess u)) = true := by
    intro u
    rw [normalizeLineEndings_eq_spec]
    apply noBad_crlfSpec
    show noBadSlashGt none (slashGtPass _) = true
    rw [slashGtPass_eq_spec]
    exact slashGtSpec_good none _
  exact ⟨key s, fun ind eol io ac x => key _⟩

/-- C2 counterexample: on input `<a  />` the pipeline returns `<a  />`
unchanged — the `/>` is preceded by two spaces, not exactly one. -/
theorem c2_two_spaces_counterexample :
    indentXmlCpp ['\t'] ['\n'] true true ('<' :: 'a' :: ' ' :: ' ' :: '/' :: '>' :: []) =
      ('<' :: 'a' :: ' ' :: ' ' :: '/' :: '>' :: []) := by
  decide

/-- C3: in the string the part_000 `indentXML` returns, the first comment of
the post-processed text — any text may precede it, as long as no earlier
`<!--` does — is handled by `formatSingleLineComments` before the final
normalization: a multi-line body (one containing CR or LF) is kept verbatim,
and a single-line body is re-wrapped as `rewrapComment` does — leading and
trailing *space* characters dropped, runs of *spaces* collapsed, `<!--` and
`-->` with exactly one space inside each, an empty or all-space body giving
`<!-- -->` — while scanning continues over the rest of the string
(`formatSingleLineComments post`), so later comments are treated the same
way.  The body conditions only rule out degenerate comments (`-->` inside the
body, or a body whose first bytes re-close the opener).  The claim's stronger
wording — that surrounding *whitespace* is trimmed — is refuted by
`c3_tab_body_counterexample`: only `' '` is trimmed and collapsed, tabs
survive. -/
theorem c3_single_line_comment_rewrap (ind eol : List Char) (io ac : Bool)
    (x pre body post : List Char)
    (hsplit : cppPostProcess (prettyPrint (indenterParams ind eol io ac)
        (normalizeLineEndings (dropToFirstLt x))) =
      pre ++ commentOpen ++ body ++ commentClose ++ post)
    (hpre : findSub commentOpen pre = none)
    (hbody : findSub commentClose body = none)
    (hstart1 : body.head? ≠ some '>')
    (hstart2 : body.take 2 ≠ ['-', '>']) :
    indentXml000 ind eol io ac x =
      normalizeLineEndings
        (pre ++ (if '\n' ∈ body ∨ '\r' ∈ body then commentOpen ++ body ++ commentClose
          else rewrapComment body) ++ formatSingleLineComments post) := by
  show normalizeLineEndings (formatSingleLineComments (cppPostProcess
      (prettyPrint (indenterParams ind eol io ac)
        (normalizeLineEndings (dropToFirstLt x))))) = _
  rw [hsplit, formatSingleLineComments_comment pre body post hpre hbody hstart1 hstart2]

/-- C3 witness: on input `<r><!--  a  --></r>` the post-processed text is
`<r> <!--  a  --></r>` — the comment is preceded by a tag — and `indentXML`
returns it with the comment re-wrapped to `<!-- a -->`. -/
theorem c3_single_line_comment_rewrap_witness :
    cppPostProcess (prettyPrint (indenterParams ['\t'] ['\n'] true true)
        (normalizeLineEndings (dropToFirstLt
          ('<' :: 'r' :: '>' :: '<' :: '!' :: '-' :: '-' :: ' ' :: ' ' :: 'a' :: ' ' :: ' ' :: '-' :: '-' :: '>' :: '<' :: '/' :: 'r' :: '>' :: [])))) =
      ('<' :: 'r' :: '>' :: ' ' :: []) ++ commentOpen ++
        (' ' :: ' ' :: 'a' :: ' ' :: ' ' :: []) ++ commentClose ++
        ('<' :: '/' :: 'r' :: '>' :: []) ∧
    findSub commentOpen ('<' :: 'r' :: '>' :: ' ' :: []) = none ∧
    indentXml000 ['\t'] ['\n'] true true
        ('<' :: 'r' :: '>' :: '<' :: '!' :: '-' :: '-' :: ' ' :: ' ' :: 'a' :: ' ' :: ' ' :: '-' :: '-' :: '>' :: '<' :: '/' :: 'r' :: '>' :: []) =
      normalizeLineEndings
        (('<' :: 'r' :: '>' :: ' ' :: []) ++
          (if '\n' ∈ (' ' :: ' ' :: 'a' :: ' ' :: ' ' :: []) ∨
              '\r' ∈ (' ' :: ' ' :: 'a' :: ' ' :: ' ' :: []) then
            commentOpen ++ (' ' :: ' ' :: 'a' :: ' ' :: ' ' :: []) ++ commentClose
          else rewrapComment (' ' :: ' ' :: 'a' :: ' ' :: ' ' :: [])) ++
          formatSingleLineComments ('<' :: '/' :: 'r' :: '>' :: [])) :=
  ⟨by decide, by decide,
    c3_single_line_comment_rewrap ['\t'] ['\n'] true true
      ('<' :: 'r' :: '>' :: '<' :: '!' :: '-' :: '-' :: ' ' :: ' ' :: 'a' :: ' ' :: ' ' :: '-' :: '-' :: '>' :: '<' :: '/' :: 'r' :: '>' :: [])
      ('<' :: 'r' :: '>' :: ' ' :: []) (' ' :: ' ' :: 'a' :: ' ' :: ' ' :: [])
      ('<' :: '/' :: 'r' :: '>' :: [])
      (by decide) (by decide) (by decide) (by decide) (by decide)⟩

/-- C3 counterexample: the comment `<!-- \t -->` has an all-whitespace
single-line body, yet it is returned unchanged (the tab survives) instead of
becoming `<!-- -->`. -/
theorem c3_tab_body_counterexample :
    formatSingleLineComments ('<' :: '!' :: '-' :: '-' :: ' ' :: '\t' :: ' ' :: '-' :: '-' :: '>' :: []) =
      ('<' :: '!' :: '-' :: '-' :: ' ' :: '\t' :: ' ' :: '-' :: '-' :: '>' :: []) ∧
    ('<' :: '!' :: '-' :: '-' :: ' ' :: '\t' :: ' ' :: '-' :: '-' :: '>' :: []) ≠
      commentOpen ++ [' '] ++ commentClose := by
  decide

/-- C5: `indentXML` first drops everything before the first `<` of the input
(everything when a `<` exists, nothing otherwise), and only then runs the rest
of the pipeline on the trimmed text. -/
theorem c5_trim_to_first_lt (x : List Char) :
    ('<' ∈ x → dropToFirstLt x = x.dropWhile (fun c => c ≠ '<')) ∧
    ('<' ∉ x → dropToFirstLt x = x) ∧
    (∀ ind eol io ac, indentXmlCpp ind eol io ac x =
      normalizeLineEndings (cppPostProcess
        (prettyPrint (indenterParams ind eol io ac)
          (normalizeLineEndings (dropToFirstLt x))))) := by
  refine ⟨?_, ?_, fun ind eol io ac => rfl⟩
  · intro hmem
    induction x with
    | nil => simp at hmem
    | cons d rest ih =>
      by_cases hd : d = '<'
      · subst hd
        simp [dropToFirstLt, findChar, List.dropWhile]
      · have hmem' : '<' ∈ rest := by
          rcases List.mem_cons.mp hmem with h | h
          · exact absurd h.symm hd
          · exact h
        cases hfc : findChar '<' rest with
        | none => exact absurd hmem' (findChar_none hfc)
        | some i =>
          have h1 : dropToFirstLt (d :: rest) = rest.drop i := by
            simp [dropToFirstLt, findChar, hd, hfc]
          have h2 : dropToFirstLt rest = rest.drop i := by
            simp [dropToFirstLt, hfc]
          rw [h1, List.dropWhile_cons, if_pos (by simp [hd])]
          rw [← h2, ih hmem']
  · intro hnot
    cases hfc : findChar '<' x with
    | none => simp [dropToFirstLt, hfc]
    | some i =>
      exfalso
      apply hnot
      have hdrop := (findChar_some hfc).1
      exact List.mem_of_mem_drop (by rw [hdrop]; exact List.mem_cons_self _ _)

/-- C5 witness: on `ab<c` the trim keeps exactly the suffix from the first
`<`. -/
theorem c5_trim_to_first_lt_witness :
    ('<' ∈ ('a' :: 'b' :: '<' :: 'c' :: [])) ∧
    dropToFirstLt ('a' :: 'b' :: '<' :: 'c' :: []) =
      ('a' :: 'b' :: '<' :: 'c' :: []).dropWhile (fun c => c ≠ '<') :=
  ⟨by decide, (c5_trim_to_first_lt ('a' :: 'b' :: '<' :: 'c' :: [])).1 (by decide)⟩

/-- C6: the token stream of the modelled tokenizer tiles its input exactly:
the ranges start at 0, each token is non-empty and begins where the previous
one ended, the last ends at the buffer length (`tokensTile`); hence
concatenating the tokens' bytes reproduces the buffer, the ranges are
non-overlapping and monotone, and every range lies within the buffer. -/
theorem c6_token_ranges_tile (src : List Char) :
    tokensTile src.length 0 (tokenize src) = true ∧
    tokensBytes src (tokenize src) = src ∧
    List.Chain' (fun a b => a.pos + a.size ≤ b.pos) (tokenize src) ∧
    (∀ t ∈ tokenize src, t.pos + t.size ≤ src.length) := by
  have hpos : initTkState.pos = 0 := rfl
  have h0 : tokensTile src.length 0 (tokenize src) = true := by
    have := tokenizeGo_tiles src (src.length + 1) initTkState
      (by rw [hpos]; exact Nat.zero_le _) (by rw [hpos]; omega)
    rw [hpos] at this
    exact this
  refine ⟨h0, ?_, tokensTile_chain h0, tokensTile_within h0⟩
  have hb := tokensTile_bytes src (tokenize src) 0 h0
  simpa using hb

/-- C7: with zero arguments the program walks the directory entries, selects
exactly the regular files whose extension is `.xml` or `.xsd`
(`wantsXmlOrXsd`, with the `std::filesystem` extension rule on the filename
component), and — provided the walk yields distinct paths, as a real
filesystem does — overwrites exactly the selected files in place with their
`indentXML` output at the default settings (tab indent, LF eol, indent-only,
auto-close), leaving every other entry untouched. -/
theorem c7_zero_arg_main (fs : List FsEntry) (hnd : (fs.map FsEntry.path).Nodup) :
    findXmlAndXsdFiles fs = fs.filter wantsXmlOrXsd ∧
    mainZeroArgs fs = fs.map (fun e =>
      if wantsXmlOrXsd e then
        { e with content := indentXml000 ['\t'] ['\n'] true true e.content }
      else e) := by
  refine ⟨findXmlAndXsdFiles_eq_filter fs, ?_⟩
  rw [mainZeroArgs, findXmlAndXsdFiles_eq_filter]
  have hsubl : ((fs.filter wantsXmlOrXsd).map FsEntry.path).Sublist (fs.map FsEntry.path) :=
    List.Sublist.map _ (List.filter_sublist fs)
  have hnd2 : ((fs.filter wantsXmlOrXsd).map FsEntry.path).Nodup :=
    List.Nodup.sublist hsubl hnd
  rw [foldProcess_eq (fs.filter wantsXmlOrXsd) fs hnd hnd2]
  apply List.map_congr_left
  intro a ha
  by_cases hw : wantsXmlOrXsd a = true
  · have hc : a.path ∈ (fs.filter wantsXmlOrXsd).map FsEntry.path :=
      List.mem_map_of_mem _ (List.mem_filter.mpr ⟨ha, hw⟩)
    rw [if_pos hc, if_pos hw]
  · have hc : ¬ a.path ∈ (fs.filter wantsXmlOrXsd).map FsEntry.path := by
      intro hmem
      rcases List.mem_map.mp hmem with ⟨b, hb, hbp⟩
      have hbfs := (List.mem_filter.mp hb).1
      have hbw := (List.mem_filter.mp hb).2
      have hba : b = a := List.inj_on_of_nodup_map hnd hbfs ha hbp
      rw [hba] at hbw
      exact hw hbw
    rw [if_neg hc, if_neg hw]

/-- C7 witness: on `sampleFs` the two `.xml`/`.xsd` regular files are
rewritten (`<a/>` to `<a />`, `<b></b>` auto-closed to `<b />`) and the
directory, the `.txt` file and the hidden `.xml` file are untouched. -/
theorem c7_zero_arg_main_witness :
    ((sampleFs.map FsEntry.path).Nodup) ∧
    mainZeroArgs sampleFs = sampleFs.map (fun e =>
      if wantsXmlOrXsd e then
        { e with content := indentXml000 ['\t'] ['\n'] true true e.content }
      else e) :=
  ⟨by decide, (c7_zero_arg_main sampleFs (by decide)).2⟩

/-- C8: the two `indentXML` versions agree on every input whose
post-processed formatter output contains no `<!--` — but not in general: the
part_000 version additionally reformats single-line comments, and
`c8_comment_input_counterexample` exhibits an input where the two outputs
differ. -/
theorem c8_agree_without_comments (ind eol : List Char) (io ac : Bool) (x : List Char)
    (h : findSub commentOpen (cppPostProcess
      (prettyPrint (indenterParams ind eol io ac)
        (normalizeLineEndings (dropToFirstLt x)))) = none) :
    indentXml000 ind eol io ac x = indentXmlCpp ind eol io ac x := by
  show normalizeLineEndings (formatSingleLineComments (cppPostProcess
      (prettyPrint (indenterParams ind eol io ac)
        (normalizeLineEndings (dropToFirstLt x))))) =
    normalizeLineEndings (cppPostProcess
      (prettyPrint (indenterParams ind eol io ac)
        (normalizeLineEndings (dropToFirstLt x))))
  rw [formatSingleLineComments_no_comment h]

/-- C8 witness: on `<a/>` (no comment anywhere) the two versions agree. -/
theorem c8_agree_without_comments_witness :
    findSub commentOpen (cppPostProcess
      (prettyPrint (indenterParams ['\t'] ['\n'] true true)
        (normalizeLineEndings (dropToFirstLt ('<' :: 'a' :: '/' :: '>' :: []))))) = none ∧
    indentXml000 ['\t'] ['\n'] true true ('<' :: 'a' :: '/' :: '>' :: []) =
      indentXmlCpp ['\t'] ['\n'] true true ('<' :: 'a' :: '/' :: '>' :: []) :=
  ⟨by decide, c8_agree_without_comments ['\t'] ['\n'] true true ('<' :: 'a' :: '/' :: '>' :: []) (by decide)⟩

/-- C8 counterexample: on `<r><!--  a  --></r>` the src/src version keeps the
comment's double spaces while the part_000 version collapses them, so the two
implementations return different strings. -/
theorem c8_comment_input_counterexample :
    indentXmlCpp ['\t'] ['\n'] true true
        ('<' :: 'r' :: '>' :: '<' :: '!' :: '-' :: '-' :: ' ' :: ' ' :: 'a' :: ' ' :: ' ' :: '-' :: '-' :: '>' :: '<' :: '/' :: 'r' :: '>' :: []) =
      ('<' :: 'r' :: '>' :: ' ' :: '<' :: '!' :: '-' :: '-' :: ' ' :: ' ' :: 'a' :: ' ' :: ' ' :: '-' :: '-' :: '>' :: '<' :: '/' :: 'r' :: '>' :: []) ∧
    indentXml000 ['\t'] ['\n'] true true
        ('<' :: 'r' :: '>' :: '<' :: '!' :: '-' :: '-' :: ' ' :: ' ' :: 'a' :: ' ' :: ' ' :: '-' :: '-' :: '>' :: '<' :: '/' :: 'r' :: '>' :: []) =
      ('<' :: 'r' :: '>' :: ' ' :: '<' :: '!' :: '-' :: '-' :: ' ' :: 'a' :: ' ' :: '-' :: '-' :: '>' :: '<' :: '/' :: 'r' :: '>' :: []) ∧
    indentXml000 ['\t'] ['\n'] true true
        ('<' :: 'r' :: '>' :: '<' :: '!' :: '-' :: '-' :: ' ' :: ' ' :: 'a' :: ' ' :: ' ' :: '-' :: '-' :: '>' :: '<' :: '/' :: 'r' :: '>' :: []) ≠
      indentXmlCpp ['\t'] ['\n'] true true
        ('<' :: 'r' :: '>' :: '<' :: '!' :: '-' :: '-' :: ' ' :: ' ' :: 'a' :: ' ' :: ' ' :: '-' :: '-' :: '>' :: '<' :: '/' :: 'r' :: '>' :: []) := by
  refine ⟨by decide, by decide, ?_⟩
  intro hcon
  have h1 : indentXmlCpp ['\t'] ['\n'] true true
      ('<' :: 'r' :: '>' :: '<' :: '!' :: '-' :: '-' :: ' ' :: ' ' :: 'a' :: ' ' :: ' ' :: '-' :: '-' :: '>' :: '<' :: '/' :: 'r' :: '>' :: []) =
    ('<' :: 'r' :: '>' :: ' ' :: '<' :: '!' :: '-' :: '-' :: ' ' :: ' ' :: 'a' :: ' ' :: ' ' :: '-' :: '-' :: '>' :: '<' :: '/' :: 'r' :: '>' :: []) := by decide
  have h2 : indentXml000 ['\t'] ['\n'] true true
      ('<' :: 'r' :: '>' :: '<' :: '!' :: '-' :: '-' :: ' ' :: ' ' :: 'a' :: ' ' :: ' ' :: '-' :: '-' :: '>' :: '<' :: '/' :: 'r' :: '>' :: []) =
    ('<' :: 'r' :: '>' :: ' ' :: '<' :: '!' :: '-' :: '-' :: ' ' :: 'a' :: ' ' :: '-' :: '-' :: '>' :: '<' :: '/' :: 'r' :: '>' :: []) := by decide
  rw [h1, h2] at hcon
  exact absurd hcon (by decide)

/-- C9: `normalizeLineEndings` touches only line-ending characters: deleting
every CR and LF (`stripEol`) from its output gives the same string as deleting
them from the input. -/
theorem c9_normalize_preserves_non_eol (s : List Char) :
    stripEol (normalizeLineEndings s) = stripEol s := by
  rw [normalizeLineEndings_eq_spec]
  exact stripEol_crlfSpec s

/-- C10: `replaceAll` terminates for a non-empty pattern: the loop, which
resumes scanning right after each inserted replacement, reaches its final
string within `source.length + 1` iterations, so every larger iteration
budget returns the same string — even when the replacement contains the
pattern, as the witness (`a` to `aa`) exercises. -/
theorem c10_replace_all_fuel_stable (source fr rep : List Char) (hfr : fr ≠ [])
    (fuel : Nat) (hfuel : source.length + 1 ≤ fuel) :
    replaceAllGo fuel fr rep source 0 = replaceAll source fr rep := by
  rw [replaceAll]
  exact replaceAllGo_fuel hfr fuel (source.length + 1) source 0 (by omega) (by omega)

/-- C10 witness: replacing `a` by `aa` in `aba` stabilizes at `aabaa` no
matter how much extra fuel the loop gets. -/
theorem c10_replace_all_fuel_stable_witness :
    (('a' :: []) : List Char) ≠ [] ∧
    ('a' :: 'b' :: 'a' :: [] : List Char).length + 1 ≤ 100 ∧
    replaceAllGo 100 ('a' :: []) ('a' :: 'a' :: []) ('a' :: 'b' :: 'a' :: []) 0 =
      replaceAll ('a' :: 'b' :: 'a' :: []) ('a' :: []) ('a' :: 'a' :: []) :=
  ⟨by decide, by decide,
    c10_replace_all_fuel_stable ('a' :: 'b' :: 'a' :: []) ('a' :: []) ('a' :: 'a' :: [])
      (by decide) 100 (by decide)⟩

end XmlCleanup
